import Mathlib

/-!
Verification development for Sloth (sloth.py), a generator that turns
directories of texture maps into renderer shader scripts.

The Python source is shallowly embedded: Python dicts become ordered
association lists (insertion order preserved, update-in-place keeps the
position, as CPython dicts do), Python sets of strings become Finset
String, floats that the program only ever compares against constants
become Rat, and fallible operations return explicit error lists.
Filenames and shader names are lists of characters (Str), since the code
manipulates them character by character.

Out-of-scope collaborators (per the specification): the configuration
tokenizer (configparser) is abstracted as already-parsed directive lists,
and PIL image decoding is abstracted as an image-metadata oracle.
-/

namespace Sloth

/-- Characters of a filename or shader name; the Python code slices
strings character-wise, so we work on character lists. -/
abbrev Str := List Char

def chars (s : String) : Str := s.data

/-! ## Ordered dictionaries (Python dict semantics on association lists) -/

/-- Python dict lookup, first (and with Nodup keys, only) binding. -/
def dlookup {κ α : Type} [DecidableEq κ] : List (κ × α) → κ → Option α
  | [], _ => none
  | (k, v) :: rest, key => if key = k then some v else dlookup rest key

/-- Python dict.pop: remove the binding of a key. -/
def dpop {κ α : Type} [DecidableEq κ] (d : List (κ × α)) (key : κ) : List (κ × α) :=
  d.filter (fun p => decide (p.1 ≠ key))

/-- Update a present key in place (keeps its position), as Python
assignment does for existing keys. Absent keys are left alone. -/
def dset {κ α : Type} [DecidableEq κ] (d : List (κ × α)) (key : κ) (v : α) : List (κ × α) :=
  d.map (fun p => if p.1 = key then (key, v) else p)

/-- Python dict assignment d[key] = v: overwrite in place when present,
append at the end when absent. -/
def dinsert {κ α : Type} [DecidableEq κ] (d : List (κ × α)) (key : κ) (v : α) : List (κ × α) :=
  if (dlookup d key).isSome then dset d key v else d ++ [(key, v)]

/-- Python dict.update: insert all bindings of the second dict. -/
def dupdate {κ α : Type} [DecidableEq κ] (d new : List (κ × α)) : List (κ × α) :=
  new.foldl (fun acc p => dinsert acc p.1 p.2) d

/-! ## The option bundle (ShaderGenerator.__init__, sloth.py lines 79-90) -/

abbrev RGB := Nat × Nat × Nat

/-- Stored alpha-test policy: a fraction (Python float) or a named test. -/
inductive AlphaTest : Type where
  | num (q : Rat)
  | nm (s : String)
  deriving DecidableEq, Repr

/-- Value passed to __setAlphaTest: Python float, str or None. -/
inductive TestVal : Type where
  | flt (q : Rat)
  | str (s : String)
  | noneV
  deriving DecidableEq, Repr

/-- Entry of a keywords / addKeywords / delKeywords section: a value set,
or none for a bare key (Python None marker). -/
abbrev KwVal := Option (Finset String)

/-- An ordered keyword table (Python dict: key -> set of values or None). -/
abbrev KwTable := List (String × KwVal)

/-- The mutable option bundle of the generator (self["options"]) and of
every directory / shader copy of it. The three keyword-overlay sections
are optional because the Python code creates those dict keys on demand. -/
structure PureOptions : Type where
  lightColors      : List (String × RGB)
  customLights     : List (String × Int)
  predefLights     : List (String × Int)
  precalcColors    : Bool
  guessKeywords    : Bool
  radToAddExp      : Rat
  heightNormalsMod : Rat
  editorOpacity    : Rat
  alphaTest        : Option AlphaTest
  alphaShadows     : Bool
  renderer         : String
  keywords         : Option KwTable
  addKeywords      : Option KwTable
  delKeywords      : Option KwTable
  deriving DecidableEq

/-- Default options installed by ShaderGenerator.__init__. -/
def defaultOptions : PureOptions where
  lightColors      := []
  customLights     := []
  predefLights     := []
  precalcColors    := false
  guessKeywords    := false
  radToAddExp      := 1
  heightNormalsMod := 1
  editorOpacity    := 1
  alphaTest        := none
  alphaShadows     := true
  renderer         := "xreal"
  keywords         := none
  addKeywords      := none
  delKeywords      := none

def supportedRenderers : List String := ["quake3", "xreal", "daemon"]

/-! ## Option setters (sloth.py lines 143-295)

Each setter returns the updated bundle together with the list of error
messages printed through self.error on that call. -/

def setKeywordGuessing (v : Bool) (o : PureOptions) : PureOptions × List String :=
  ({ o with guessKeywords := v }, [])

def setRadToAddExponent (v : Rat) (o : PureOptions) : PureOptions × List String :=
  ({ o with radToAddExp := v }, [])

def setHeightNormalsMod (v : Rat) (o : PureOptions) : PureOptions × List String :=
  ({ o with heightNormalsMod := v }, [])

def setPrecalcColors (v : Bool) (o : PureOptions) : PureOptions × List String :=
  ({ o with precalcColors := v }, [])

def setAlphaShadows (v : Bool) (o : PureOptions) : PureOptions × List String :=
  ({ o with alphaShadows := v }, [])

/-- __setEditorOpacity: accepts a float in the half-open interval ]0,1],
otherwise reports an error and leaves the field untouched. -/
def setEditorOpacity (v : Rat) (o : PureOptions) : PureOptions × List String :=
  if 0 < v ∧ v ≤ 1 then ({ o with editorOpacity := v }, [])
  else (o, ["Editor transparency must be a float in ]0,1]."])

/-- __setAlphaTest: a float inside the unit interval or one of the three
named tests is stored; None clears the policy; anything else clears the
policy AND reports an error (note: the field does not keep its prior
value on the error path). -/
def setAlphaTest (t : TestVal) (o : PureOptions) : PureOptions × List String :=
  match t with
  | .flt q =>
      if 0 ≤ q ∧ q ≤ 1 then ({ o with alphaTest := some (.num q) }, [])
      else ({ o with alphaTest := none },
            ["Alpha test must be either None, a valid string or a float in [0,1]."])
  | .str s =>
      if s = "GT0" ∨ s = "GE128" ∨ s = "LT128" then
        ({ o with alphaTest := some (.nm s) }, [])
      else ({ o with alphaTest := none },
            ["Alpha test must be either None, a valid string or a float in [0,1]."])
  | .noneV => ({ o with alphaTest := none }, [])

/-- __setRenderer: unsupported names are reported and ignored. -/
def setRenderer (r : String) (o : PureOptions) : PureOptions × List String :=
  if r ∈ supportedRenderers then ({ o with renderer := r }, [])
  else (o, ["Renderer " ++ r ++ " not supported."])

/-- The colorRE check: exactly six lowercase hexadecimal digits. -/
def isHexColor (s : String) : Bool :=
  s.data.length = 6 && s.data.all (fun c => c.isDigit || ('a' ≤ c && c ≤ 'f'))

def hexDigitVal (c : Char) : Nat :=
  if c.isDigit then c.toNat - '0'.toNat else c.toNat - 'a'.toNat + 10

def hexPair (c d : Char) : Nat := 16 * hexDigitVal c + hexDigitVal d

/-- __addLightColor: validate the color against colorRE, then store the
RGB triple under the given name (overwriting a same-named entry). -/
def addLightColor (nm color : String) (o : PureOptions) : PureOptions × List String :=
  if isHexColor color then
    match color.data with
    | c0 :: c1 :: c2 :: c3 :: c4 :: c5 :: _ =>
        ({ o with lightColors :=
            dinsert o.lightColors nm (hexPair c0 c1, hexPair c2 c3, hexPair c4 c5) }, [])
    | _ => (o, [])  -- unreachable: isHexColor forces six characters
  else (o, ["Not a valid color: " ++ color ++ ". Format is [0-9][a-f]{6}."])

/-- Human-readable bucket name of a light intensity (__addLightIntensity):
10000 and above become "<thousands>k", 0 becomes "norad", anything else
its decimal string. -/
def intensityName (i : Int) : String :=
  if i ≥ 10000 then toString (i / 1000) ++ "k"
  else if i = 0 then "norad"
  else toString i

/-- __addLightIntensity: negative intensities are silently skipped
(verbose message, not an error); non-negative ones are bucketed by name
into the custom or predefined intensity dict. -/
def addLightIntensity (i : Int) (custom : Bool) (o : PureOptions) : PureOptions × List String :=
  if i < 0 then (o, [])
  else if custom then
    ({ o with customLights := dinsert o.customLights (intensityName i) i }, [])
  else
    ({ o with predefLights := dinsert o.predefLights (intensityName i) i }, [])

/-! ## Sloth option files (__parseSlothFile, sloth.py lines 308-412)

A parsed file is an ordered list of directives. Numeric and boolean raw
values arrive already converted by the abstract section reader
(configparser getfloat / getboolean per the specification, which places
tokenizing out of scope); colors, renderer names and alphaFunc names stay
raw strings because their validation lives in this program. -/

inductive KwSec : Type where
  | kw | addKw | delKw
  deriving DecidableEq, Repr

inductive Directive : Type where
  | colors (l : List (String × String))
  | addColors (l : List (String × String))
  | predefLightsD (l : List Int)
  | addPredefLights (l : List Int)
  | customLightsD (l : List Int)
  | addCustomLights (l : List Int)
  | precalcColorsD (b : Bool)
  | colorBlendExp (q : Rat)
  | alphaFuncD (s : Option String)
  | alphaTestD (q : Rat)
  | alphaShadowsD (b : Bool)
  | heightNormalsModD (q : Rat)
  | editorOpacityD (q : Rat)
  | rendererD (s : String)
  | invalidOption (nm : String)
  | kwSection (which : KwSec) (entries : List (String × Option (List String)))
  | invalidSection (nm : String)
  deriving Repr

abbrev SlothFile := List Directive

/-- Fold a list of setter steps, accumulating the error messages. -/
def foldSet {β : Type} (f : β → PureOptions → PureOptions × List String)
    (l : List β) (o : PureOptions) : PureOptions × List String :=
  l.foldl (fun acc b =>
    let r := f b acc.1
    (r.1, acc.2 ++ r.2)) (o, [])

/-- Application of one entry of a keywords / addKeywords / delKeywords
section, following lines 401-409: a valued entry unions the split values
into the (possibly created) set; a bare entry stores the None marker.
When the existing entry is a bare marker and values arrive, CPython would
raise AttributeError on set-update; that corner is left as the identity
here and excluded by hypothesis wherever it could matter. -/
def applyKwEntry (t : KwTable) (key : String) (v : Option (List String)) : KwTable :=
  match v with
  | some vals =>
      match dlookup t key with
      | none => dinsert t key (some vals.toFinset)
      | some (some s) => dset t key (some (s ∪ vals.toFinset))
      | some none => t
  | none => dinsert t key none

def applyKwSectionOn (t : KwTable) (entries : List (String × Option (List String))) : KwTable :=
  entries.foldl (fun t p => applyKwEntry t p.1 p.2) t

def getKwSec (o : PureOptions) : KwSec → Option KwTable
  | .kw => o.keywords
  | .addKw => o.addKeywords
  | .delKw => o.delKeywords

def putKwSec (o : PureOptions) : KwSec → KwTable → PureOptions
  | .kw, t => { o with keywords := some t }
  | .addKw, t => { o with addKeywords := some t }
  | .delKw, t => { o with delKeywords := some t }

/-- Application of a single parsed directive (the dispatch of
__parseSlothFile, lines 331-412). -/
def applyDirective (o : PureOptions) (d : Directive) : PureOptions × List String :=
  match d with
  | .colors l => foldSet (fun p => addLightColor p.1 p.2) l { o with lightColors := [] }
  | .addColors l => foldSet (fun p => addLightColor p.1 p.2) l o
  | .predefLightsD l => foldSet (fun i => addLightIntensity i false) l { o with predefLights := [] }
  | .addPredefLights l => foldSet (fun i => addLightIntensity i false) l o
  | .customLightsD l => foldSet (fun i => addLightIntensity i true) l { o with customLights := [] }
  | .addCustomLights l => foldSet (fun i => addLightIntensity i true) l o
  | .precalcColorsD b => setPrecalcColors b o
  | .colorBlendExp q => setRadToAddExponent q o
  | .alphaFuncD s =>
      match s with
      | some s => setAlphaTest (.str s) o
      | none => setAlphaTest .noneV o
  | .alphaTestD q => setAlphaTest (.flt q) o
  | .alphaShadowsD b => setAlphaShadows b o
  | .heightNormalsModD q => setHeightNormalsMod q o
  | .editorOpacityD q => setEditorOpacity q o
  | .rendererD s => setRenderer s o
  | .invalidOption nm => (o, ["Invalid option " ++ nm ++ " in section options."])
  | .kwSection which entries =>
      -- shader["options"].setdefault(section, dict()) then per-entry update
      (putKwSec o which (applyKwSectionOn ((getKwSec o which).getD []) entries), [])
  | .invalidSection nm => (o, ["Invalid section " ++ nm ++ "."])

/-- Application of a whole parsed sloth file: directives in file order. -/
def applySlothFile (o : PureOptions) (f : SlothFile) : PureOptions × List String :=
  f.foldl (fun acc d =>
    let r := applyDirective acc.1 d
    (r.1, acc.2 ++ r.2)) (o, [])

/-! ## Per-shader option resolution (generateSet, sloth.py lines 609-645) -/

/-- The per-prefix loop of generateSet (lines 636-645): walk the
character positions of the shader name from the left; whenever the
prefix of length pos+1 names an existing .sloth file, apply that file.
Most specific (longest) prefixes are therefore applied last. -/
def applyPrefixFiles (slothfiles : List Str) (contents : Str → SlothFile)
    (o : PureOptions) (shadername : Str) : PureOptions :=
  (List.range shadername.length).foldl (fun o pos =>
    if shadername.take (pos + 1) ∈ slothfiles
    then (applySlothFile o (contents (shadername.take (pos + 1)))).1 else o) o

/-- Full resolution for one shader: deep copy of the generator defaults,
then the per-directory options file when present (lines 609-616), then
the per-prefix files (lines 636-645). -/
def resolveOptions (defaults : PureOptions) (dirFile : Option SlothFile)
    (slothfiles : List Str) (contents : Str → SlothFile) (shadername : Str) : PureOptions :=
  let dirOpts := match dirFile with
    | some f => (applySlothFile defaults f).1
    | none => defaults
  applyPrefixFiles slothfiles contents dirOpts shadername

/-! ## Map association (generateSet, sloth.py lines 647-664) -/

/-- One trial ladder of the association loop: try the prefixes of the
shader name of length n, n-1, ..., 1 with the suffix appended, returning
the first (longest) candidate found among the discovered stems. -/
def findMapFrom (cands : List Str) (base suffix : Str) : Nat → Option Str
  | 0 => none
  | n + 1 =>
      if base.take (n + 1) ++ suffix ∈ cands then some (base.take (n + 1) ++ suffix)
      else findMapFrom cands base suffix n

/-- The while loop of lines 650-660: start from the full shader name and
drop the last character until a stem matches or the name is exhausted. -/
def findMap (cands : List Str) (base suffix : Str) : Option Str :=
  findMapFrom cands base suffix base.length

/-! ## Shader records (the per-shader dicts built by generateSet) -/

/-- Python truthiness of a string-or-None entry: None and the empty
string are falsy. -/
def truthy : Option Str → Bool
  | some s => !s.isEmpty
  | none => false

/-- The metadata bag shader["meta"]. Every field is optional because the
Python dict acquires the keys one stage at a time. -/
structure ShaderMeta : Type where
  diffuseAlpha      : Option Bool
  diffuseAlphaBin   : Option Bool
  additionGrayscale : Option Bool
  additionAverage   : Option (Rat × Rat × Rat)
  lightIntensity    : Option Int
  lightColor        : Option RGB
  deriving DecidableEq

def emptyMeta : ShaderMeta := ⟨none, none, none, none, none, none⟩

/-- One shader record. The per-map-type entries shader[maptype] live in
the ordered dict maps (map type name -> stem or None), extensions in
exts. The relpath / abspath strings are path bookkeeping with no merge
semantics and are not modelled. -/
structure Shader : Type where
  name     : Str
  maps     : List (String × Option Str)
  exts     : List (String × Option Str)
  options  : PureOptions
  meta     : ShaderMeta
  keywords : Option KwTable
  deriving DecidableEq

/-- shader[maptype]: looking the map type up in the record. -/
def getMapV (sh : Shader) (t : String) : Option Str :=
  (dlookup sh.maps t).join

/-! ## Metadata analysis (__analyzeMaps, sloth.py lines 415-476)

PIL image decoding is the abstract image-metadata provider of the
specification; a PyImage carries exactly the facts the code reads. -/

structure PyImage : Type where
  mode                : String
  extremaLastMin      : Nat                      -- img.getextrema()[-1][0]
  hasTransparencyInfo : Bool                     -- "transparency" in img.info
  alphaBytes          : List Nat                 -- img.split()[-1].tobytes()
  rgbColors           : Option (List (Nat × RGB)) -- convert("RGB").getcolors(256)
  histogram           : List Nat                 -- convert("RGB").histogram()
  width               : Nat
  height              : Nat

/-- State of the average-color loop of lines 460-471. -/
structure AvgState : Type where
  value   : Nat
  channel : Nat
  a0      : Rat
  a1      : Rat
  a2      : Rat
  finished : Bool

/-- One iteration of the histogram loop. Division by a zero pixel count
would raise in Python; Rat division by zero yields zero here. -/
def avgStep (w h : Nat) (st : AvgState) (count : Nat) : AvgState :=
  if st.finished then st
  else
    let add : Rat := (count : Rat) * ((st.value : Rat) / 255)
    let st := match st.channel with
      | 0 => { st with a0 := st.a0 + add }
      | 1 => { st with a1 := st.a1 + add }
      | _ => { st with a2 := st.a2 + add }
    if st.value + 1 > 255 then
      let st := match st.channel with
        | 0 => { st with a0 := st.a0 / ((w : Rat) * (h : Rat)) }
        | 1 => { st with a1 := st.a1 / ((w : Rat) * (h : Rat)) }
        | _ => { st with a2 := st.a2 / ((w : Rat) * (h : Rat)) }
      { st with value := 0, channel := st.channel + 1, finished := st.channel + 1 = 3 }
    else { st with value := st.value + 1 }

/-- Per-channel mean intensity of the addition map, normalized to [0,1]
(lines 460-476); a grayscale image replicates the first channel. -/
def additionAverageOf (img : PyImage) (gray : Bool) : Rat × Rat × Rat :=
  let st := img.histogram.foldl (avgStep img.width img.height) ⟨0, 0, 0, 0, 0, false⟩
  if gray then (st.a0, st.a0, st.a0) else (st.a0, st.a1, st.a2)

/-- __analyzeMaps: alpha facts of the diffuse map, grayscale-ness (and,
when requested, average color) of the addition map. Note the source
compares img.mode against the lowercase "p" on line 427, faithfully kept
here. -/
def analyzeMaps (imgs : Str → PyImage) (sh : Shader) : Shader :=
  let img := imgs ((getMapV sh "diffuse").getD [])
  let dAlpha :=
    if img.mode = "RGBA" ∨ img.mode = "LA" then
      if img.extremaLastMin = 255 then false else true
    else if img.mode = "p" ∧ img.hasTransparencyInfo then true
    else false
  let dBin := dAlpha && img.alphaBytes.all (fun b => b = 0 || b = 255)
  let meta1 := { sh.meta with diffuseAlpha := some dAlpha, diffuseAlphaBin := some dBin }
  if truthy (getMapV sh "addition") then
    let img2 := imgs ((getMapV sh "addition").getD [])
    let gray0 := img2.mode = "L" ∨ img2.mode = "LA"
    let gray :=
      if gray0 then true
      else match img2.rgbColors with
        | some cs => !cs.isEmpty && cs.all (fun p => p.2.1 = p.2.2.1 && p.2.2.1 = p.2.2.2)
        | none => false
    let meta2 := { meta1 with additionGrayscale := some gray }
    let meta3 :=
      if sh.options.precalcColors then
        { meta2 with additionAverage := some (additionAverageOf img2 gray) }
      else meta2
    { sh with meta := meta3 }
  else { sh with meta := meta1 }

/-! ## Keyword assembly (__addKeywords, sloth.py lines 479-525) -/

/-- The fixed guess table mapping surfaceparm values to trigger words
(lines 40-51), in source order. -/
def surfaceParms : List (String × List String) :=
  [("donotenter", ["lava", "slime"]),
   ("dust", ["sand", "dust"]),
   ("flesh", ["flesh", "meat", "organ"]),
   ("ladder", ["ladder"]),
   ("lava", ["lava"]),
   ("metalsteps", ["metal", "steel", "iron", "tread", "grate"]),
   ("slick", ["ice"]),
   ("slime", ["slime"]),
   ("water", ["water"])]

/-- Python substring test (word in name). -/
def strContains (s w : Str) : Bool :=
  (List.range (s.length + 1)).any (fun i => (s.drop i).take w.length == w)

/-- keywords.setdefault(key, set()) followed by .add(val). On a key
holding the bare None marker CPython would raise AttributeError; that
corner is the identity here and never reached by the claims. -/
def kwAddToSet (t : KwTable) (key val : String) : KwTable :=
  match dlookup t key with
  | none => dinsert t key (some {val})
  | some (some s) => dset t key (some (insert val s))
  | some none => t

/-- One entry of the delKeywords pass (lines 517-525): a bare entry pops
the key; a valued entry subtracts in place and pops the key when its set
empties; a key absent from the table is skipped. A valued entry whose
stored keyword is the bare marker raises in CPython (AttributeError) and
is the identity here. -/
def delEntry (kw : KwTable) (p : String × KwVal) : KwTable :=
  if (dlookup kw p.1).isSome then
    match p.2 with
    | none => dpop kw p.1
    | some v =>
        match dlookup kw p.1 with
        | some (some s) =>
            let s2 := s \ v
            if s2 = ∅ then dpop kw p.1 else dset kw p.1 (some s2)
        | _ => kw
  else kw

/-- The delKeywords pass of __addKeywords (lines 516-525). -/
def delKeywordsStep (keywords dels : KwTable) : KwTable :=
  dels.foldl delEntry keywords

/-- __addKeywords: transparency keywords, guessed surfaceparms, then the
keywords / addKeywords / delKeywords overlays, in that order. The two
crash corners of the addKeywords pass (set.update(None) and
None.update(...)) are identities here, as in kwAddToSet. -/
def addKeywordsTo (sh : Shader) : Shader :=
  let kw := sh.keywords.getD []
  let kw :=
    if sh.meta.diffuseAlpha.getD false then
      let kw := kwAddToSet kw "surfaceparm" "trans"
      let kw := dinsert kw "cull" (some {"none"})
      if sh.options.alphaShadows then kwAddToSet kw "surfaceparm" "alphashadow" else kw
    else kw
  let kw :=
    if sh.options.guessKeywords then
      surfaceParms.foldl (fun kw sp =>
        sp.2.foldl (fun kw w =>
          if strContains sh.name (chars w) then kwAddToSet kw "surfaceparm" sp.1 else kw) kw) kw
    else kw
  let kw := match sh.options.keywords with
    | some entries => entries.foldl (fun kw p => dinsert kw p.1 p.2) kw
    | none => kw
  let kw := match sh.options.addKeywords with
    | some entries => entries.foldl (fun kw p =>
        match dlookup kw p.1 with
        | none => dinsert kw p.1 p.2
        | some (some s) =>
            match p.2 with
            | some t => dset kw p.1 (some (s ∪ t))
            | none => kw
        | some none => kw) kw
    | none => kw
  let kw := match sh.options.delKeywords with
    | some entries => delKeywordsStep kw entries
    | none => kw
  { sh with keywords := some kw }

/-! ## Light variant expansion (__expandLightShaders, sloth.py 528-568) -/

/-- shader["addition"] = None (line 560). -/
def clearAddition (sh : Shader) : Shader :=
  { sh with maps := dinsert sh.maps "addition" none }

/-- Contribution of one shader to the newShaders dict: the color x
custom-intensity grid for grayscale addition maps, the predefined
intensities otherwise, then the single _off record with the addition map
cleared. Shaders without a (truthy) addition map contribute nothing. -/
def expandStep (acc : List (Str × Shader)) (p : Str × Shader) : List (Str × Shader) :=
  let shadername := p.1
  let sh := p.2
  if truthy (getMapV sh "addition") then
    let acc :=
      if sh.meta.additionGrayscale.getD false then
        sh.options.lightColors.foldl (fun acc cp =>
          sh.options.customLights.foldl (fun acc ip =>
            dinsert acc (shadername ++ chars "_" ++ chars cp.1 ++ chars "_" ++ chars ip.1)
              { sh with meta := { sh.meta with lightIntensity := some ip.2,
                                               lightColor := some cp.2 } }) acc) acc
      else
        sh.options.predefLights.foldl (fun acc ip =>
          dinsert acc (shadername ++ chars "_" ++ chars ip.1)
            { sh with meta := { sh.meta with lightIntensity := some ip.2 } }) acc
    dinsert acc (shadername ++ chars "_off") (clearAddition sh)
  else acc

/-- __expandLightShaders: collect the replacement shaders, delete every
original carrying an addition map, and merge the replacements into the
set (dict.update). -/
def expandLightShaders (s : List (Str × Shader)) : List (Str × Shader) :=
  let newShaders := s.foldl expandStep []
  let kept := s.filter (fun p => !truthy (getMapV p.2 "addition"))
  dupdate kept newShaders

/-! ## Set generation (generateSet, sloth.py lines 571-679) -/

/-- The configured map-type suffixes (setSuffixes, lines 121-130). -/
structure Suffixes : Type where
  diffuse      : Str
  normal       : Str
  normalheight : Str
  height       : Str
  physical     : Str
  specular     : Str
  addition     : Str
  preview      : Str

/-- self.suffixes as an ordered dict, in the insertion order of
setSuffixes. -/
def suffixPairs (su : Suffixes) : List (String × Str) :=
  [("diffuse", su.diffuse), ("normal", su.normal), ("normalheight", su.normalheight),
   ("height", su.height), ("physical", su.physical), ("specular", su.specular),
   ("addition", su.addition), ("preview", su.preview)]

def defaultSuffixes : Suffixes :=
  ⟨chars "_d", chars "_n", chars "_nh", chars "_h", chars "_orm", chars "_s",
   chars "_a", chars "_p"⟩

def extBlackList : List Str := [chars ".ora", chars ".psd", chars ".xcf"]

/-- A Python set of names, modelled as a duplicate-free list in first
insertion order (iteration order of CPython sets is unspecified; no
verified property depends on it). -/
def setInsert (l : List Str) (x : Str) : List Str :=
  if x ∈ l then l else l ++ [x]

structure ScanResult : Type where
  mapsbytype : List (String × List Str)
  mapext     : List (Str × Str)
  slothfiles : List Str

/-- The directory scan of lines 582-598: skip blacklisted extensions,
collect .sloth stems, and sort every other stem into the candidate set
of each suffix it ends with (also remembering its extension). The
mapsbytype.setdefault calls only pre-create empty entries; since every
later read goes through a getD [] here, they are omitted. -/
def scanFiles (su : Suffixes) (filelist : List (Str × Str)) : ScanResult :=
  filelist.foldl (fun acc fp =>
    let mapname := fp.1
    let ext := fp.2
    if ext.map Char.toLower ∈ extBlackList then acc
    else if ext = chars ".sloth" then
      { acc with slothfiles := setInsert acc.slothfiles mapname }
    else
      (suffixPairs su).foldl (fun acc sp =>
        if sp.2.isSuffixOf mapname then
          { acc with
            mapext := dinsert acc.mapext mapname ext,
            mapsbytype := dinsert acc.mapsbytype sp.1
              (setInsert ((dlookup acc.mapsbytype sp.1).getD []) mapname) }
        else acc) acc) ⟨[], [], []⟩

structure GenState : Type where
  defaults : PureOptions
  suffixes : Suffixes
  sets     : List (Str × List (Str × Shader))

/-- Per-directory input: the listing as (stem, extension) pairs in the
sense of os.path.splitext, plus the two abstract content oracles (parsed
.sloth files by stem, image metadata by stem). -/
structure DirInput : Type where
  filelist      : List (Str × Str)
  slothContents : Str → SlothFile
  imgs          : Str → PyImage

/-- generateSet: scan the listing, resolve the per-directory options,
add one shader per diffuse stem (per-prefix option files, map
association over every known type, metadata, keywords), then expand the
light-emitting shaders. The shader name is diffusename.rsplit(diffuse
suffix, 1)[0], which for a stem that ends with the suffix equals the
stem with its final suffix.length characters removed. -/
def generateSet (g : GenState) (inp : DirInput) (setname : Str) : GenState :=
  let scan := scanFiles g.suffixes inp.filelist
  let dirOpts :=
    if (chars "options", chars ".sloth") ∈ inp.filelist then
      (applySlothFile g.defaults (inp.slothContents (chars "options"))).1
    else g.defaults
  let curSet := (dlookup g.sets setname).getD []
  let newSet := ((dlookup scan.mapsbytype "diffuse").getD []).foldl (fun st diffusename =>
    let shadername := diffusename.take (diffusename.length - g.suffixes.diffuse.length)
    let opts := applyPrefixFiles scan.slothfiles inp.slothContents dirOpts shadername
    let mapsL := (suffixPairs g.suffixes).map (fun sp =>
      (sp.1, findMap ((dlookup scan.mapsbytype sp.1).getD []) shadername sp.2))
    let extsL := mapsL.map (fun p => (p.1, p.2.bind (fun m => dlookup scan.mapext m)))
    let sh0 : Shader :=
      { name := shadername, maps := mapsL, exts := extsL, options := opts,
        meta := emptyMeta, keywords := none }
    let sh1 := analyzeMaps inp.imgs sh0
    let sh2 := addKeywordsTo sh1
    dinsert st shadername sh2) curSet
  { g with sets := dinsert g.sets setname (expandLightShaders newSet) }

/-! ## Shader emission (getShader, sloth.py lines 699-946)

The claims under verification concern which blocks are emitted, the
preview-image decision and the alpha policy of the diffuse stage; those
parts are embedded below. -/

/-- Preview image decision (lines 742-747): explicit preview map, else
diffuse map, else none. -/
def previewChoice (sh : Shader) : Option Str :=
  if truthy (getMapV sh "preview") then getMapV sh "preview"
  else if truthy (getMapV sh "diffuse") then getMapV sh "diffuse"
  else none

/-- The alpha keyword the diffuse stage appends to stage_keys. -/
inductive AlphaStageKey : Type where
  | alphaFuncK (s : String)
  | alphaTestK (q : Rat)
  | blendBlend
  deriving DecidableEq, Repr

/-- Python truthiness of the stored alphaTest value (line 816): None,
the float 0.0 and the empty string are all falsy. -/
def truthyTest : Option AlphaTest → Bool
  | none => false
  | some (.num q) => decide (q ≠ 0)
  | some (.nm s) => !s.isEmpty

/-- Alpha policy of the diffuse stage of a shader whose diffuse map has
alpha (lines 815-828): a truthy configured policy wins, else binary
alpha implies alphaFunc GE128, else smooth blending. -/
def diffuseAlphaStageKey (o : PureOptions) (m : ShaderMeta) : AlphaStageKey :=
  if truthyTest o.alphaTest then
    match o.alphaTest with
    | some (.nm s) => .alphaFuncK s
    | some (.num q) => .alphaTestK q
    | none => .blendBlend   -- unreachable: none is falsy
  else if m.diffuseAlphaBin.getD false then .alphaFuncK "GE128"
  else .blendBlend

/-- Lexicographic comparison of Python strings by code point. -/
def lexLe : Str → Str → Bool
  | [], _ => true
  | _ :: _, [] => false
  | a :: as, b :: bs => if a = b then lexLe as bs else decide (a < b)

def insertSorted (x : Str) : List Str → List Str
  | [] => [x]
  | y :: ys => if lexLe x y then x :: y :: ys else y :: insertSorted x ys

def sortStr (l : List Str) : List Str := l.foldr insertSorted []

abbrev Sets := List (Str × List (Str × Shader))

/-- Result of a getShader request: the (unchanged) stored sets, the
emitted shader blocks identified as (set name, shader name) pairs in
emission order (none models the bare return of line 714, which yields
Python None), and the reported errors. -/
structure EmitSelection : Type where
  state  : Sets
  output : Option (List (Str × Str))
  errors : List String
  deriving DecidableEq

/-- The set/shader selection logic of getShader (lines 709-735): an
unknown requested set is reported and aborts with no output; a known set
with an unknown requested shader name is skipped silently (the continue
on line 723); otherwise the blocks of the selected shaders are emitted,
sorted by name when no single shader was requested. -/
def getShaderBlocks (sets : Sets) (setname : Option Str) (shadername : Option Str) :
    EmitSelection :=
  let emitFrom : List Str → List (Str × Str) := fun setnames =>
    setnames.foldl (fun acc sn =>
      let shaderset := (dlookup sets sn).getD []
      match shadername with
      | some shn => if (dlookup shaderset shn).isSome then acc ++ [(sn, shn)] else acc
      | none => acc ++ (sortStr (shaderset.map Prod.fst)).map (fun n => (sn, n))) []
  match setname with
  | some sn =>
      if (dlookup sets sn).isSome then
        { state := sets, output := some (emitFrom [sn]), errors := [] }
      else
        { state := sets, output := none,
          errors := ["Unknown set " ++ String.mk sn ++ "."] }
  | none =>
      { state := sets, output := some (emitFrom (sets.map Prod.fst)), errors := [] }

/-! ## Heap model of option bundles (for the deep-copy claim)

The pure model above gives value semantics to every bundle copy; what
copy.deepcopy (used by __copyOptions, lines 303-305, at both copy sites
of generateSet, lines 612 and 626) actually guarantees is about object
identity: each copy allocates fresh nodes for the options dict and for
every mutable container inside it, so writing through one bundle can
never be observed through another. To verify that we model the object
graph: a store maps addresses to nodes; the options dict node holds its
immutable scalar entries inline and the addresses of its mutable
children (the three color/intensity dicts and the on-demand
keywords / addKeywords / delKeywords section dicts). -/

/-- The immutable (Python scalar) entries of the options dict. -/
structure ScalarOpts : Type where
  precalcColors    : Bool
  guessKeywords    : Bool
  radToAddExp      : Rat
  heightNormalsMod : Rat
  editorOpacity    : Rat
  alphaTest        : Option AlphaTest
  alphaShadows     : Bool
  renderer         : String
  deriving DecidableEq

/-- A heap node: one of the mutable containers reachable from an options
dict, or the options dict itself. -/
inductive HNode : Type where
  | colorsN (d : List (String × RGB))
  | intsN (d : List (String × Int))
  | kwN (d : List (String × KwVal))
  | optsN (scal : ScalarOpts) (colorsRef customRef predefRef : Nat)
      (kwRefs : List (String × Nat))
  deriving DecidableEq

structure HStore : Type where
  heap : List (Nat × HNode)
  next : Nat

/-- Every allocated address is below the allocation counter. -/
def heapKeysLt (s : HStore) : Prop := ∀ p ∈ s.heap, p.1 < s.next

/-- Mutation of the object at an existing address. -/
def writeH (s : HStore) (a : Nat) (n : HNode) : HStore :=
  { s with heap := dset s.heap a n }

/-- Allocation of a fresh object. -/
def allocH (s : HStore) (n : HNode) : Nat × HStore :=
  (s.next, { heap := s.heap ++ [(s.next, n)], next := s.next + 1 })

def readColors (s : HStore) (a : Nat) : Option (List (String × RGB)) :=
  match dlookup s.heap a with
  | some (.colorsN d) => some d
  | _ => none

def readInts (s : HStore) (a : Nat) : Option (List (String × Int)) :=
  match dlookup s.heap a with
  | some (.intsN d) => some d
  | _ => none

def readKw (s : HStore) (a : Nat) : Option (List (String × KwVal)) :=
  match dlookup s.heap a with
  | some (.kwN d) => some d
  | _ => none

/-- The value of an options bundle as observed through the heap. -/
structure OptsView : Type where
  scalars      : ScalarOpts
  lightColors  : List (String × RGB)
  customLights : List (String × Int)
  predefLights : List (String × Int)
  kwSections   : List (String × List (String × KwVal))
  deriving DecidableEq

def readKwSecs (s : HStore) : List (String × Nat) → Option (List (String × List (String × KwVal)))
  | [] => some []
  | p :: rest =>
      match readKw s p.2, readKwSecs s rest with
      | some d, some ds => some ((p.1, d) :: ds)
      | _, _ => none

/-- Dereference a bundle completely. -/
def readView (s : HStore) (r : Nat) : Option OptsView :=
  match dlookup s.heap r with
  | some (.optsN scal cr ur pr kws) =>
      match readColors s cr, readInts s ur, readInts s pr, readKwSecs s kws with
      | some cd, some ud, some pd, some kd => some ⟨scal, cd, ud, pd, kd⟩
      | _, _, _, _ => none
  | _ => none

/-- The addresses owned by a bundle: its options dict and every mutable
container inside it. -/
def footprint (s : HStore) (r : Nat) : List Nat :=
  match dlookup s.heap r with
  | some (.optsN _ cr ur pr kws) => r :: cr :: ur :: pr :: kws.map Prod.snd
  | _ => [r]

def allocKwSecs (s : HStore) :
    List (String × List (String × KwVal)) → List (String × Nat) × HStore
  | [] => ([], s)
  | p :: rest =>
      let ar := allocH s (.kwN p.2)
      let rr := allocKwSecs ar.2 rest
      ((p.1, ar.1) :: rr.1, rr.2)

/-- Materialize a bundle value as freshly allocated nodes. -/
def allocView (s : HStore) (v : OptsView) : Nat × HStore :=
  let c := allocH s (.colorsN v.lightColors)
  let u := allocH c.2 (.intsN v.customLights)
  let p := allocH u.2 (.intsN v.predefLights)
  let k := allocKwSecs p.2 v.kwSections
  allocH k.2 (.optsN v.scalars c.1 u.1 p.1 k.1)

/-- copy.deepcopy of an options bundle (__copyOptions): read the object
graph out of the store and rebuild it from fresh nodes, leaving the
source untouched. -/
def deepcopyOptions (s : HStore) (r : Nat) : Option (Nat × HStore) :=
  match readView s r with
  | some v => some (allocView s v)
  | none => none

/-- The copy structure of generateSet: one deepcopy of the generator
defaults for the directory bundle (line 612), then one deepcopy of the
directory bundle per discovered shader (line 626). -/
def copyN (s : HStore) (src : Nat) : Nat → Option (List Nat × HStore)
  | 0 => some ([], s)
  | n + 1 =>
      match deepcopyOptions s src with
      | some rs1 =>
          match copyN rs1.2 src n with
          | some rss => some (rs1.1 :: rss.1, rss.2)
          | none => none
      | none => none

def copyChain (s : HStore) (r : Nat) (n : Nat) : Option (Nat × List Nat × HStore) :=
  match deepcopyOptions s r with
  | some ds =>
      match copyN ds.2 ds.1 n with
      | some rss => some (ds.1, rss.1, rss.2)
      | none => none
  | none => none

/-! # Lemmas about the ordered-dictionary operations -/

theorem dlookup_nil {κ α : Type} [DecidableEq κ] (k : κ) :
    dlookup ([] : List (κ × α)) k = none := rfl

theorem dlookup_cons {κ α : Type} [DecidableEq κ] (k k2 : κ) (v : α) (d : List (κ × α)) :
    dlookup ((k2, v) :: d) k = if k = k2 then some v else dlookup d k := rfl

theorem dlookup_append_some {κ α : Type} [DecidableEq κ] {d1 : List (κ × α)} {k : κ} {v : α}
    (d2 : List (κ × α)) (h : dlookup d1 k = some v) : dlookup (d1 ++ d2) k = some v := by
  induction d1 with
  | nil => simp [dlookup] at h
  | cons p rest ih =>
      rcases p with ⟨k2, w⟩
      rw [List.cons_append, dlookup_cons]
      rw [dlookup_cons] at h
      by_cases hk : k = k2
      · rw [if_pos hk] at h ⊢
        exact h
      · rw [if_neg hk] at h ⊢
        exact ih h

theorem dlookup_append_none {κ α : Type} [DecidableEq κ] {d1 : List (κ × α)} {k : κ}
    (d2 : List (κ × α)) (h : dlookup d1 k = none) : dlookup (d1 ++ d2) k = dlookup d2 k := by
  induction d1 with
  | nil => simp
  | cons p rest ih =>
      rcases p with ⟨k2, w⟩
      rw [List.cons_append, dlookup_cons]
      rw [dlookup_cons] at h
      by_cases hk : k = k2
      · rw [if_pos hk] at h
        exact absurd h (by simp)
      · rw [if_neg hk] at h ⊢
        exact ih h

theorem dlookup_dset_ne {κ α : Type} [DecidableEq κ] {x a : κ} (d : List (κ × α)) (v : α)
    (h : x ≠ a) : dlookup (dset d a v) x = dlookup d x := by
  induction d with
  | nil => rfl
  | cons p rest ih =>
      rcases p with ⟨k2, w⟩
      by_cases hk : k2 = a
      · show dlookup ((if k2 = a then (a, v) else (k2, w)) :: dset rest a v) x =
          dlookup ((k2, w) :: rest) x
        rw [if_pos hk, dlookup_cons, dlookup_cons, if_neg h,
          if_neg (fun hx => h (hx.trans hk)), ih]
      · show dlookup ((if k2 = a then (a, v) else (k2, w)) :: dset rest a v) x =
          dlookup ((k2, w) :: rest) x
        rw [if_neg hk, dlookup_cons, dlookup_cons, ih]

theorem dlookup_dset_self {κ α : Type} [DecidableEq κ] (d : List (κ × α)) (a : κ) (v : α) :
    dlookup (dset d a v) a = (dlookup d a).map (fun _ => v) := by
  induction d with
  | nil => rfl
  | cons p rest ih =>
      rcases p with ⟨k2, w⟩
      by_cases hk : k2 = a
      · show dlookup ((if k2 = a then (a, v) else (k2, w)) :: dset rest a v) a =
          (dlookup ((k2, w) :: rest) a).map (fun _ => v)
        rw [if_pos hk, dlookup_cons, dlookup_cons, if_pos rfl, if_pos hk.symm]
        rfl
      · show dlookup ((if k2 = a then (a, v) else (k2, w)) :: dset rest a v) a =
          (dlookup ((k2, w) :: rest) a).map (fun _ => v)
        rw [if_neg hk, dlookup_cons, dlookup_cons, if_neg (fun hx => hk hx.symm),
          if_neg (fun hx => hk hx.symm), ih]

theorem dlookup_dinsert_self {κ α : Type} [DecidableEq κ] (d : List (κ × α)) (k : κ) (v : α) :
    dlookup (dinsert d k v) k = some v := by
  unfold dinsert
  rcases h : dlookup d k with _ | w
  · simp only [Option.isSome_none, Bool.false_eq_true, if_false]
    rw [dlookup_append_none _ h, dlookup_cons, if_pos rfl]
  · simp only [Option.isSome_some, if_true]
    rw [dlookup_dset_self, h]
    rfl

theorem dlookup_dinsert_ne {κ α : Type} [DecidableEq κ] {x k : κ} (d : List (κ × α)) (v : α)
    (h : x ≠ k) : dlookup (dinsert d k v) x = dlookup d x := by
  unfold dinsert
  rcases hk : dlookup d k with _ | w
  · simp only [Option.isSome_none, Bool.false_eq_true, if_false]
    rcases hx : dlookup d x with _ | u
    · rw [dlookup_append_none _ hx, dlookup_cons, if_neg h, dlookup_nil]
    · rw [dlookup_append_some _ hx]
  · simp only [Option.isSome_some, if_true]
    exact dlookup_dset_ne d v h

theorem dinsert_of_absent {κ α : Type} [DecidableEq κ] {d : List (κ × α)} {k : κ} (v : α)
    (h : dlookup d k = none) : dinsert d k v = d ++ [(k, v)] := by
  simp [dinsert, h]

theorem dlookup_dpop_self {κ α : Type} [DecidableEq κ] (d : List (κ × α)) (k : κ) :
    dlookup (dpop d k) k = none := by
  induction d with
  | nil => rfl
  | cons p rest ih =>
      rcases p with ⟨k2, w⟩
      by_cases hk : k2 = k
      · have h2 : dpop ((k2, w) :: rest) k = dpop rest k := by
          simp [dpop, List.filter, hk]
        rw [h2, ih]
      · have h2 : dpop ((k2, w) :: rest) k = (k2, w) :: dpop rest k := by
          simp [dpop, List.filter, hk]
        rw [h2, dlookup_cons, if_neg (fun hx => hk hx.symm), ih]

theorem dlookup_dpop_ne {κ α : Type} [DecidableEq κ] {x k : κ} (d : List (κ × α))
    (h : x ≠ k) : dlookup (dpop d k) x = dlookup d x := by
  induction d with
  | nil => rfl
  | cons p rest ih =>
      rcases p with ⟨k2, w⟩
      by_cases hk : k2 = k
      · have h2 : dpop ((k2, w) :: rest) k = dpop rest k := by
          simp [dpop, List.filter, hk]
        rw [h2, ih, dlookup_cons, if_neg (fun hx => h (hx.trans hk))]
      · have h2 : dpop ((k2, w) :: rest) k = (k2, w) :: dpop rest k := by
          simp [dpop, List.filter, hk]
        rw [h2, dlookup_cons, dlookup_cons, ih]

theorem dupdate_eq_append {κ α : Type} [DecidableEq κ] :
    ∀ (l acc : List (κ × α)), (∀ p ∈ l, dlookup acc p.1 = none) →
      (l.map Prod.fst).Nodup → dupdate acc l = acc ++ l := by
  intro l
  induction l with
  | nil => intro acc _ _; simp [dupdate]
  | cons p rest ih =>
      intro acc habs hnd
      rcases p with ⟨k1, v1⟩
      have hstep : dinsert acc k1 v1 = acc ++ [(k1, v1)] :=
        dinsert_of_absent v1 (habs (k1, v1) (by simp))
      have hrest : ∀ q ∈ rest, dlookup (acc ++ [(k1, v1)]) q.1 = none := by
        intro q hq
        rw [dlookup_append_none _ (habs q (by simp [hq]))]
        have hne : q.1 ≠ k1 := by
          simp only [List.map_cons, List.nodup_cons] at hnd
          intro he
          exact hnd.1 (he ▸ List.mem_map_of_mem Prod.fst hq)
        rw [dlookup_cons, if_neg hne, dlookup_nil]
      have hnd2 : (rest.map Prod.fst).Nodup := by
        simp only [List.map_cons, List.nodup_cons] at hnd
        exact hnd.2
      calc dupdate acc ((k1, v1) :: rest)
          = dupdate (dinsert acc k1 v1) rest := rfl
        _ = dupdate (acc ++ [(k1, v1)]) rest := by rw [hstep]
        _ = (acc ++ [(k1, v1)]) ++ rest := ih (acc ++ [(k1, v1)]) hrest hnd2
        _ = acc ++ (k1, v1) :: rest := by simp

/-! # C2: map association picks the longest matching prefix -/

theorem findMapFrom_some (cands : List Str) (base suffix : Str) :
    ∀ n m, findMapFrom cands base suffix n = some m →
      ∃ k, 1 ≤ k ∧ k ≤ n ∧ m = base.take k ++ suffix ∧ m ∈ cands ∧
        ∀ j, k < j → j ≤ n → base.take j ++ suffix ∉ cands := by
  intro n
  induction n with
  | zero => intro m h; simp [findMapFrom] at h
  | succ n ih =>
      intro m h
      unfold findMapFrom at h
      by_cases hc : base.take (n + 1) ++ suffix ∈ cands
      · rw [if_pos hc] at h
        injection h with hm
        exact ⟨n + 1, by omega, le_refl _, hm.symm, hm ▸ hc, fun j h1 h2 => by omega⟩
      · rw [if_neg hc] at h
        obtain ⟨k, hk1, hk2, hkm, hkc, hmax⟩ := ih m h
        refine ⟨k, hk1, by omega, hkm, hkc, ?_⟩
        intro j h1 h2
        rcases Nat.lt_or_ge j (n + 1) with hj | hj
        · exact hmax j h1 (by omega)
        · have : j = n + 1 := by omega
          rw [this]
          exact hc

theorem findMapFrom_none (cands : List Str) (base suffix : Str) :
    ∀ n, findMapFrom cands base suffix n = none ↔
      ∀ j, 1 ≤ j → j ≤ n → base.take j ++ suffix ∉ cands := by
  intro n
  induction n with
  | zero =>
      constructor
      · intro _ j h1 h2
        omega
      · intro _
        rfl
  | succ n ih =>
      unfold findMapFrom
      by_cases hc : base.take (n + 1) ++ suffix ∈ cands
      · rw [if_pos hc]
        constructor
        · intro h
          exact Option.noConfusion h
        · intro h
          exact absurd hc (h (n + 1) (by omega) (le_refl _))
      · rw [if_neg hc, ih]
        constructor
        · intro h j h1 h2
          rcases Nat.lt_or_ge j (n + 1) with hj | hj
          · exact h j h1 (by omega)
          · have : j = n + 1 := by omega
            rw [this]; exact hc
        · intro h j h1 h2
          exact h j h1 (by omega)

/-- C2: for every shader name and map-type suffix, the association loop
first tries the full name with the suffix appended and then drops one
trailing character at a time, binding the first (hence longest-prefix)
stem among the candidates, and yields none exactly when no non-empty
prefix of the name extended by the suffix is a candidate stem. -/
theorem C2_association_longest_match (cands : List Str) (base suffix : Str) :
    (∀ m, findMap cands base suffix = some m →
      ∃ k, 1 ≤ k ∧ k ≤ base.length ∧ m = base.take k ++ suffix ∧ m ∈ cands ∧
        ∀ j, k < j → j ≤ base.length → base.take j ++ suffix ∉ cands)
    ∧ (findMap cands base suffix = none ↔
        ∀ j, 1 ≤ j → j ≤ base.length → base.take j ++ suffix ∉ cands) :=
  ⟨fun m h => findMapFrom_some cands base suffix base.length m h,
   findMapFrom_none cands base suffix base.length⟩

/-- Witness for C2 at the example of the specification: shader
rock_metal with candidate stems rock_n and rock_metal_n binds the
longest match rock_metal_n. -/
theorem C2_association_longest_match_witness :
    findMap [chars "rock_n", chars "rock_metal_n"] (chars "rock_metal") (chars "_n") =
      some (chars "rock_metal_n") ∧
    ∃ k, 1 ≤ k ∧ k ≤ (chars "rock_metal").length ∧
      chars "rock_metal_n" = (chars "rock_metal").take k ++ chars "_n" ∧
      chars "rock_metal_n" ∈ [chars "rock_n", chars "rock_metal_n"] ∧
      ∀ j, k < j → j ≤ (chars "rock_metal").length →
        (chars "rock_metal").take j ++ chars "_n" ∉ [chars "rock_n", chars "rock_metal_n"] :=
  ⟨by decide,
   (C2_association_longest_match [chars "rock_n", chars "rock_metal_n"]
     (chars "rock_metal") (chars "_n")).1 (chars "rock_metal_n") (by decide)⟩

/-! # Name disjointness of the expanded light variants

The variant names are <name>_<color>_<intensity> and <name>_<intensity>;
intensity names produced by __addLightIntensity are decimal strings,
"norad" or "<thousands>k", hence never contain an underscore and never
equal "off". Under those facts the generated names are pairwise
distinct. -/

theorem lastSep_inj :
    ∀ (c c2 i i2 : List Char), '_' ∉ i → '_' ∉ i2 →
      c ++ '_' :: i = c2 ++ '_' :: i2 → c = c2 ∧ i = i2 := by
  intro c
  induction c with
  | nil =>
      intro c2 i i2 hi hi2 h
      cases c2 with
      | nil =>
          rw [List.nil_append, List.nil_append] at h
          injection h with h1 h2
          exact ⟨rfl, h2⟩
      | cons b t =>
          rw [List.nil_append, List.cons_append] at h
          injection h with h1 h2
          have hmem : '_' ∈ i := by
            rw [h2]
            exact List.mem_append_right t (List.mem_cons_self _ _)
          exact absurd hmem hi
  | cons a t ih =>
      intro c2 i i2 hi hi2 h
      cases c2 with
      | nil =>
          rw [List.cons_append, List.nil_append] at h
          injection h with h1 h2
          have hmem : '_' ∈ i2 := by
            rw [← h2]
            exact List.mem_append_right t (List.mem_cons_self _ _)
          exact absurd hmem hi2
      | cons b t2 =>
          rw [List.cons_append, List.cons_append] at h
          injection h with h1 h2
          obtain ⟨hc, hii⟩ := ih t2 i i2 hi hi2 h2
          exact ⟨by rw [h1, hc], hii⟩

theorem variantName_ne {n c c2 i i2 : Str} (hi : '_' ∉ i) (hi2 : '_' ∉ i2)
    (h : ¬(c = c2 ∧ i = i2)) :
    n ++ chars "_" ++ c ++ chars "_" ++ i ≠ n ++ chars "_" ++ c2 ++ chars "_" ++ i2 := by
  intro he
  apply h
  have h2 : n ++ ('_' :: (c ++ '_' :: i)) = n ++ ('_' :: (c2 ++ '_' :: i2)) := by
    simpa [chars, List.append_assoc] using he
  have h3 := List.append_cancel_left h2
  injection h3 with h4 h5
  exact lastSep_inj c c2 i i2 hi hi2 h5

theorem variantName_ne_off {n c i : Str} :
    n ++ chars "_" ++ c ++ chars "_" ++ i ≠ n ++ chars "_off" := by
  intro he
  have h2 : n ++ ('_' :: (c ++ '_' :: i)) = n ++ ('_' :: chars "off") := by
    simpa [chars, List.append_assoc] using he
  have h3 := List.append_cancel_left h2
  injection h3 with h4 h5
  have hmem : '_' ∈ c ++ '_' :: i :=
    List.mem_append_right c (List.mem_cons_self _ _)
  rw [h5] at hmem
  exact absurd hmem (by decide)

theorem predefName_ne {n i i2 : Str} (h : i ≠ i2) :
    n ++ chars "_" ++ i ≠ n ++ chars "_" ++ i2 := by
  intro he
  apply h
  have h2 : n ++ ('_' :: i) = n ++ ('_' :: i2) := by
    simpa [chars, List.append_assoc] using he
  have h3 := List.append_cancel_left h2
  injection h3

theorem predefName_ne_off {n i : Str} (h : i ≠ chars "off") :
    n ++ chars "_" ++ i ≠ n ++ chars "_off" := by
  intro he
  apply h
  have h2 : n ++ ('_' :: i) = n ++ ('_' :: chars "off") := by
    simpa [chars, List.append_assoc] using he
  have h3 := List.append_cancel_left h2
  injection h3

theorem chars_ne {a b : String} (h : a ≠ b) : chars a ≠ chars b := by
  intro he
  apply h
  apply String.ext
  exact he

theorem self_ne_append_off (n : Str) : n ≠ n ++ chars "_off" := by
  intro he
  have hl := congrArg List.length he
  rw [List.length_append] at hl
  simp [chars] at hl

theorem foldl_id {α β : Type} (l : List β) (a : α) :
    l.foldl (fun acc _ => acc) a = a := by
  induction l generalizing a with
  | nil => rfl
  | cons b t ih => exact ih a

/-! # C3 and C4: light variant expansion -/

/-- Example option bundle with two colors, three custom and four
predefined light intensities (the intensity names are the buckets
intensityName would produce). -/
def exOptions : PureOptions :=
  { defaultOptions with
    lightColors := [("red", (255, 0, 0)), ("blue", (0, 0, 255))],
    customLights := [("1000", 1000), ("2000", 2000), ("4000", 4000)],
    predefLights := [("norad", 0), ("200", 200), ("300", 300), ("400", 400)] }

def exShaderGray : Shader :=
  { name := chars "glow",
    maps := [("diffuse", some (chars "glow_d")), ("addition", some (chars "glow_a"))],
    exts := [], options := exOptions,
    meta := { emptyMeta with additionGrayscale := some true }, keywords := none }

def exShaderPredef : Shader :=
  { exShaderGray with meta := { emptyMeta with additionGrayscale := some false } }

def exShaderPlain : Shader :=
  { exShaderGray with maps := [("diffuse", some (chars "glow_d")), ("addition", none)] }

def exShaderZero : Shader :=
  { exShaderGray with options := { exOptions with lightColors := [] } }

set_option maxHeartbeats 2000000 in
/-- C3: light expansion of a shader with a grayscale addition map, 2
configured colors and 3 custom intensities yields exactly the 2 x 3
variant records plus one _off record with the addition map cleared
(7 records); with a non-grayscale addition map and 4 predefined
intensities exactly 4 + 1 = 5 records; with no addition map the shader
set is unchanged (1 record). The distinctness side conditions (dict keys
are duplicate-free; intensity bucket names, being decimal strings,
"norad" or "<thousands>k", contain no underscore and never equal "off")
hold for every bundle the program builds through __addLightIntensity. -/
theorem C3_light_expansion_cardinality :
    (∀ (n : Str) (sh : Shader) (cn1 cn2 in1 in2 in3 : String) (v1 v2 : RGB)
        (w1 w2 w3 : Int),
      truthy (getMapV sh "addition") = true →
      sh.meta.additionGrayscale = some true →
      sh.options.lightColors = [(cn1, v1), (cn2, v2)] →
      sh.options.customLights = [(in1, w1), (in2, w2), (in3, w3)] →
      cn1 ≠ cn2 → in1 ≠ in2 → in1 ≠ in3 → in2 ≠ in3 →
      '_' ∉ chars in1 → '_' ∉ chars in2 → '_' ∉ chars in3 →
      expandLightShaders [(n, sh)] =
        [(n ++ chars "_" ++ chars cn1 ++ chars "_" ++ chars in1,
          { sh with meta := { sh.meta with lightIntensity := some w1, lightColor := some v1 } }),
         (n ++ chars "_" ++ chars cn1 ++ chars "_" ++ chars in2,
          { sh with meta := { sh.meta with lightIntensity := some w2, lightColor := some v1 } }),
         (n ++ chars "_" ++ chars cn1 ++ chars "_" ++ chars in3,
          { sh with meta := { sh.meta with lightIntensity := some w3, lightColor := some v1 } }),
         (n ++ chars "_" ++ chars cn2 ++ chars "_" ++ chars in1,
          { sh with meta := { sh.meta with lightIntensity := some w1, lightColor := some v2 } }),
         (n ++ chars "_" ++ chars cn2 ++ chars "_" ++ chars in2,
          { sh with meta := { sh.meta with lightIntensity := some w2, lightColor := some v2 } }),
         (n ++ chars "_" ++ chars cn2 ++ chars "_" ++ chars in3,
          { sh with meta := { sh.meta with lightIntensity := some w3, lightColor := some v2 } }),
         (n ++ chars "_off", clearAddition sh)] ∧
      (expandLightShaders [(n, sh)]).length = 7)
    ∧ (∀ (n : Str) (sh : Shader) (p1 p2 p3 p4 : String) (q1 q2 q3 q4 : Int),
      truthy (getMapV sh "addition") = true →
      sh.meta.additionGrayscale = some false →
      sh.options.predefLights = [(p1, q1), (p2, q2), (p3, q3), (p4, q4)] →
      p1 ≠ p2 → p1 ≠ p3 → p1 ≠ p4 → p2 ≠ p3 → p2 ≠ p4 → p3 ≠ p4 →
      p1 ≠ "off" → p2 ≠ "off" → p3 ≠ "off" → p4 ≠ "off" →
      expandLightShaders [(n, sh)] =
        [(n ++ chars "_" ++ chars p1,
          { sh with meta := { sh.meta with lightIntensity := some q1 } }),
         (n ++ chars "_" ++ chars p2,
          { sh with meta := { sh.meta with lightIntensity := some q2 } }),
         (n ++ chars "_" ++ chars p3,
          { sh with meta := { sh.meta with lightIntensity := some q3 } }),
         (n ++ chars "_" ++ chars p4,
          { sh with meta := { sh.meta with lightIntensity := some q4 } }),
         (n ++ chars "_off", clearAddition sh)] ∧
      (expandLightShaders [(n, sh)]).length = 5)
    ∧ (∀ (n : Str) (sh : Shader), getMapV sh "addition" = none →
        expandLightShaders [(n, sh)] = [(n, sh)] ∧
        (expandLightShaders [(n, sh)]).length = 1) := by
  refine ⟨?_, ?_, ?_⟩
  · intro n sh cn1 cn2 in1 in2 in3 v1 v2 w1 w2 w3 hadd hgray hc hi hcn h12 h13 h23 hu1 hu2 hu3
    have nek : ∀ (c c2 i i2 : String), (c ≠ c2 ∨ i ≠ i2) → '_' ∉ chars i → '_' ∉ chars i2 →
        n ++ chars "_" ++ chars c ++ chars "_" ++ chars i ≠
          n ++ chars "_" ++ chars c2 ++ chars "_" ++ chars i2 := by
      intro c c2 i i2 hor hw hw2
      apply variantName_ne hw hw2
      rintro ⟨he1, he2⟩
      rcases hor with h | h
      · exact chars_ne h he1
      · exact chars_ne h he2
    set k1 := n ++ chars "_" ++ chars cn1 ++ chars "_" ++ chars in1 with hdk1
    set k2 := n ++ chars "_" ++ chars cn1 ++ chars "_" ++ chars in2 with hdk2
    set k3 := n ++ chars "_" ++ chars cn1 ++ chars "_" ++ chars in3 with hdk3
    set k4 := n ++ chars "_" ++ chars cn2 ++ chars "_" ++ chars in1 with hdk4
    set k5 := n ++ chars "_" ++ chars cn2 ++ chars "_" ++ chars in2 with hdk5
    set k6 := n ++ chars "_" ++ chars cn2 ++ chars "_" ++ chars in3 with hdk6
    set k7 := n ++ chars "_off" with hdk7
    have e12 : k1 ≠ k2 := nek cn1 cn1 in1 in2 (Or.inr h12) hu1 hu2
    have e13 : k1 ≠ k3 := nek cn1 cn1 in1 in3 (Or.inr h13) hu1 hu3
    have e14 : k1 ≠ k4 := nek cn1 cn2 in1 in1 (Or.inl hcn) hu1 hu1
    have e15 : k1 ≠ k5 := nek cn1 cn2 in1 in2 (Or.inl hcn) hu1 hu2
    have e16 : k1 ≠ k6 := nek cn1 cn2 in1 in3 (Or.inl hcn) hu1 hu3
    have e17 : k1 ≠ k7 := variantName_ne_off
    have e23 : k2 ≠ k3 := nek cn1 cn1 in2 in3 (Or.inr h23) hu2 hu3
    have e24 : k2 ≠ k4 := nek cn1 cn2 in2 in1 (Or.inl hcn) hu2 hu1
    have e25 : k2 ≠ k5 := nek cn1 cn2 in2 in2 (Or.inl hcn) hu2 hu2
    have e26 : k2 ≠ k6 := nek cn1 cn2 in2 in3 (Or.inl hcn) hu2 hu3
    have e27 : k2 ≠ k7 := variantName_ne_off
    have e34 : k3 ≠ k4 := nek cn1 cn2 in3 in1 (Or.inl hcn) hu3 hu1
    have e35 : k3 ≠ k5 := nek cn1 cn2 in3 in2 (Or.inl hcn) hu3 hu2
    have e36 : k3 ≠ k6 := nek cn1 cn2 in3 in3 (Or.inl hcn) hu3 hu3
    have e37 : k3 ≠ k7 := variantName_ne_off
    have e45 : k4 ≠ k5 := nek cn2 cn2 in1 in2 (Or.inr h12) hu1 hu2
    have e46 : k4 ≠ k6 := nek cn2 cn2 in1 in3 (Or.inr h13) hu1 hu3
    have e47 : k4 ≠ k7 := variantName_ne_off
    have e56 : k5 ≠ k6 := nek cn2 cn2 in2 in3 (Or.inr h23) hu2 hu3
    have e57 : k5 ≠ k7 := variantName_ne_off
    have e67 : k6 ≠ k7 := variantName_ne_off
    have hnodup : List.Nodup [k1, k2, k3, k4, k5, k6, k7] := by
      simp [List.nodup_cons, e12, e13, e14, e15, e16, e17, e23, e24, e25, e26, e27,
        e34, e35, e36, e37, e45, e46, e47, e56, e57, e67]
    have hkept : [(n, sh)].filter (fun p => !truthy (getMapV p.2 "addition")) = [] := by
      simp [List.filter, hadd]
    obtain ⟨L, hL⟩ : ∃ L : List (Str × Shader), L =
        [(k1, { sh with meta := { sh.meta with lightIntensity := some w1, lightColor := some v1 } }),
         (k2, { sh with meta := { sh.meta with lightIntensity := some w2, lightColor := some v1 } }),
         (k3, { sh with meta := { sh.meta with lightIntensity := some w3, lightColor := some v1 } }),
         (k4, { sh with meta := { sh.meta with lightIntensity := some w1, lightColor := some v2 } }),
         (k5, { sh with meta := { sh.meta with lightIntensity := some w2, lightColor := some v2 } }),
         (k6, { sh with meta := { sh.meta with lightIntensity := some w3, lightColor := some v2 } }),
         (k7, clearAddition sh)] := ⟨_, rfl⟩
    have hstep : expandStep ([] : List (Str × Shader)) (n, sh) = dupdate [] L := by
      rw [hL]
      simp only [expandStep, hadd, hgray, Option.getD_some, if_true, eq_self_iff_true, hc, hi]
      rfl
    have hmap : L.map Prod.fst = [k1, k2, k3, k4, k5, k6, k7] := by
      rw [hL]
      rfl
    have hnodupL : (L.map Prod.fst).Nodup := by
      rw [hmap]
      exact hnodup
    have hfinal : dupdate [] L = L := by
      have h := dupdate_eq_append L [] (fun p _ => rfl) hnodupL
      rw [List.nil_append] at h
      exact h
    have hun : expandLightShaders [(n, sh)] =
        dupdate ([(n, sh)].filter (fun p => !truthy (getMapV p.2 "addition")))
          (expandStep [] (n, sh)) := rfl
    constructor
    · rw [hun, hkept, hstep, hfinal, hfinal]
      exact hL
    · rw [hun, hkept, hstep, hfinal, hfinal, hL]
      rfl
  · intro n sh p1 p2 p3 p4 q1 q2 q3 q4 hadd hgray hp h12 h13 h14 h23 h24 h34 ho1 ho2 ho3 ho4
    set m1 := n ++ chars "_" ++ chars p1 with hdm1
    set m2 := n ++ chars "_" ++ chars p2 with hdm2
    set m3 := n ++ chars "_" ++ chars p3 with hdm3
    set m4 := n ++ chars "_" ++ chars p4 with hdm4
    set m5 := n ++ chars "_off" with hdm5
    have e12 : m1 ≠ m2 := predefName_ne (chars_ne h12)
    have e13 : m1 ≠ m3 := predefName_ne (chars_ne h13)
    have e14 : m1 ≠ m4 := predefName_ne (chars_ne h14)
    have e15 : m1 ≠ m5 := predefName_ne_off (chars_ne ho1)
    have e23 : m2 ≠ m3 := predefName_ne (chars_ne h23)
    have e24 : m2 ≠ m4 := predefName_ne (chars_ne h24)
    have e25 : m2 ≠ m5 := predefName_ne_off (chars_ne ho2)
    have e34 : m3 ≠ m4 := predefName_ne (chars_ne h34)
    have e35 : m3 ≠ m5 := predefName_ne_off (chars_ne ho3)
    have e45 : m4 ≠ m5 := predefName_ne_off (chars_ne ho4)
    have hnodup : List.Nodup [m1, m2, m3, m4, m5] := by
      simp [List.nodup_cons, e12, e13, e14, e15, e23, e24, e25, e34, e35, e45]
    have hkept : [(n, sh)].filter (fun p => !truthy (getMapV p.2 "addition")) = [] := by
      simp [List.filter, hadd]
    obtain ⟨L, hL⟩ : ∃ L : List (Str × Shader), L =
        [(m1, { sh with meta := { sh.meta with lightIntensity := some q1 } }),
         (m2, { sh with meta := { sh.meta with lightIntensity := some q2 } }),
         (m3, { sh with meta := { sh.meta with lightIntensity := some q3 } }),
         (m4, { sh with meta := { sh.meta with lightIntensity := some q4 } }),
         (m5, clearAddition sh)] := ⟨_, rfl⟩
    have hstep : expandStep ([] : List (Str × Shader)) (n, sh) = dupdate [] L := by
      rw [hL]
      simp only [expandStep, hadd, hgray, Option.getD_some, if_true, eq_self_iff_true,
        Bool.false_eq_true, if_false, hp]
      rfl
    have hmap : L.map Prod.fst = [m1, m2, m3, m4, m5] := by
      rw [hL]
      rfl
    have hnodupL : (L.map Prod.fst).Nodup := by
      rw [hmap]
      exact hnodup
    have hfinal : dupdate [] L = L := by
      have h := dupdate_eq_append L [] (fun p _ => rfl) hnodupL
      rw [List.nil_append] at h
      exact h
    have hun : expandLightShaders [(n, sh)] =
        dupdate ([(n, sh)].filter (fun p => !truthy (getMapV p.2 "addition")))
          (expandStep [] (n, sh)) := rfl
    constructor
    · rw [hun, hkept, hstep, hfinal, hfinal]
      exact hL
    · rw [hun, hkept, hstep, hfinal, hfinal, hL]
      rfl
  · intro n sh hnone
    have hadd : truthy (getMapV sh "addition") = false := by rw [hnone]; rfl
    have hstep : expandStep ([] : List (Str × Shader)) (n, sh) = [] := by
      simp only [expandStep, hadd, Bool.false_eq_true, if_false]
    have hkept : [(n, sh)].filter (fun p => !truthy (getMapV p.2 "addition")) = [(n, sh)] := by
      simp [List.filter, hadd]
    have hun : expandLightShaders [(n, sh)] =
        dupdate ([(n, sh)].filter (fun p => !truthy (getMapV p.2 "addition")))
          (expandStep [] (n, sh)) := rfl
    rw [hun, hkept, hstep]
    exact ⟨rfl, rfl⟩

/-- Witness for C3 at a concrete glow shader with 2 colors, 3 custom
and 4 predefined intensities. -/
theorem C3_light_expansion_cardinality_witness :
    (expandLightShaders [(chars "glow", exShaderGray)]).length = 7 ∧
    (expandLightShaders [(chars "glow", exShaderPredef)]).length = 5 ∧
    expandLightShaders [(chars "glow", exShaderPlain)] = [(chars "glow", exShaderPlain)] :=
  ⟨(C3_light_expansion_cardinality.1 (chars "glow") exShaderGray
      "red" "blue" "1000" "2000" "4000" (255, 0, 0) (0, 0, 255) 1000 2000 4000
      (by decide) rfl rfl rfl (by decide) (by decide) (by decide) (by decide)
      (by decide) (by decide) (by decide)).2,
   (C3_light_expansion_cardinality.2.1 (chars "glow") exShaderPredef
      "norad" "200" "300" "400" 0 200 300 400
      (by decide) rfl rfl (by decide) (by decide) (by decide) (by decide)
      (by decide) (by decide) (by decide) (by decide) (by decide) (by decide)).2,
   (C3_light_expansion_cardinality.2.2 (chars "glow") exShaderPlain rfl).1⟩

/-- C4 as stated is false: a shader with an addition map but zero
configured colors is still replaced, its name gaining the _off suffix
and its addition map being cleared, so it is not retained under its
original name. -/
theorem C4_counterexample :
    dlookup (expandLightShaders [(chars "glow", exShaderZero)]) (chars "glow") = none ∧
    expandLightShaders [(chars "glow", exShaderZero)] =
      [(chars "glow_off", clearAddition exShaderZero)] := by
  constructor
  · rfl
  · rfl

/-- C4 amended: a record with no addition map is never expanded and is
retained under its original unchanged name; a record with an addition
map but zero configured colors/intensities for its case produces no
color/intensity variants, but is nevertheless replaced by the single
<original>_off record with its addition map cleared (it is not retained
under its original name). -/
theorem C4_no_expansion_cases :
    (∀ (n : Str) (sh : Shader), getMapV sh "addition" = none →
      expandLightShaders [(n, sh)] = [(n, sh)]) ∧
    (∀ (n : Str) (sh : Shader), truthy (getMapV sh "addition") = true →
      sh.meta.additionGrayscale = some true →
      (sh.options.lightColors = [] ∨ sh.options.customLights = []) →
      expandLightShaders [(n, sh)] = [(n ++ chars "_off", clearAddition sh)] ∧
      dlookup (expandLightShaders [(n, sh)]) n = none) ∧
    (∀ (n : Str) (sh : Shader), truthy (getMapV sh "addition") = true →
      sh.meta.additionGrayscale = some false →
      sh.options.predefLights = [] →
      expandLightShaders [(n, sh)] = [(n ++ chars "_off", clearAddition sh)] ∧
      dlookup (expandLightShaders [(n, sh)]) n = none) := by
  refine ⟨?_, ?_, ?_⟩
  · intro n sh hnone
    have hadd : truthy (getMapV sh "addition") = false := by rw [hnone]; rfl
    have hstep : expandStep ([] : List (Str × Shader)) (n, sh) = [] := by
      simp only [expandStep, hadd, Bool.false_eq_true, if_false]
    have hkept : [(n, sh)].filter (fun p => !truthy (getMapV p.2 "addition")) = [(n, sh)] := by
      simp [List.filter, hadd]
    have hun : expandLightShaders [(n, sh)] =
        dupdate ([(n, sh)].filter (fun p => !truthy (getMapV p.2 "addition")))
          (expandStep [] (n, sh)) := rfl
    rw [hun, hkept, hstep]
    rfl
  · intro n sh hadd hgray hz
    have hkept : [(n, sh)].filter (fun p => !truthy (getMapV p.2 "addition")) = [] := by
      simp [List.filter, hadd]
    have hstep : expandStep ([] : List (Str × Shader)) (n, sh) =
        [(n ++ chars "_off", clearAddition sh)] := by
      rcases hz with hz | hz
      · simp only [expandStep, hadd, hgray, Option.getD_some, if_true, eq_self_iff_true,
          hz, List.foldl_nil]
        rfl
      · simp only [expandStep, hadd, hgray, Option.getD_some, if_true, eq_self_iff_true,
          hz, List.foldl_nil, foldl_id]
        rfl
    have hun : expandLightShaders [(n, sh)] =
        dupdate ([(n, sh)].filter (fun p => !truthy (getMapV p.2 "addition")))
          (expandStep [] (n, sh)) := rfl
    have hres : expandLightShaders [(n, sh)] = [(n ++ chars "_off", clearAddition sh)] := by
      rw [hun, hkept, hstep]
      rfl
    refine ⟨hres, ?_⟩
    rw [hres, dlookup_cons, if_neg (self_ne_append_off n), dlookup_nil]
  · intro n sh hadd hgray hz
    have hkept : [(n, sh)].filter (fun p => !truthy (getMapV p.2 "addition")) = [] := by
      simp [List.filter, hadd]
    have hstep : expandStep ([] : List (Str × Shader)) (n, sh) =
        [(n ++ chars "_off", clearAddition sh)] := by
      simp only [expandStep, hadd, hgray, Option.getD_some, if_true, eq_self_iff_true,
        Bool.false_eq_true, if_false, hz, List.foldl_nil]
      rfl
    have hun : expandLightShaders [(n, sh)] =
        dupdate ([(n, sh)].filter (fun p => !truthy (getMapV p.2 "addition")))
          (expandStep [] (n, sh)) := rfl
    have hres : expandLightShaders [(n, sh)] = [(n ++ chars "_off", clearAddition sh)] := by
      rw [hun, hkept, hstep]
      rfl
    refine ⟨hres, ?_⟩
    rw [hres, dlookup_cons, if_neg (self_ne_append_off n), dlookup_nil]

/-! # C6: delKeywords semantics -/

theorem delEntry_lookup_ne (kw : KwTable) (k1 : String) (v1 : KwVal) {x : String}
    (h : x ≠ k1) : dlookup (delEntry kw (k1, v1)) x = dlookup kw x := by
  unfold delEntry
  rcases hk : dlookup kw k1 with _ | w
  · simp only [Option.isSome_none, Bool.false_eq_true, if_false]
  · simp only [Option.isSome_some, if_true]
    cases v1 with
    | none => exact dlookup_dpop_ne kw h
    | some v =>
        cases w with
        | none => rfl
        | some s =>
            by_cases he : s \ v = ∅
            · simp only []
              rw [if_pos he]
              exact dlookup_dpop_ne kw h
            · simp only []
              rw [if_neg he]
              exact dlookup_dset_ne kw (some (s \ v)) h

theorem delEntry_bare_self (kw : KwTable) (k : String) :
    dlookup (delEntry kw (k, none)) k = none := by
  unfold delEntry
  rcases hk : dlookup kw k with _ | w
  · simp only [Option.isSome_none, Bool.false_eq_true, if_false]
    exact hk
  · simp only [Option.isSome_some, if_true]
    exact dlookup_dpop_self kw k

theorem delEntry_subtract_self (kw : KwTable) (k : String) (v s0 : Finset String)
    (hs0 : dlookup kw k = some (some s0)) :
    dlookup (delEntry kw (k, some v)) k =
      (if s0 \ v = ∅ then none else some (some (s0 \ v))) := by
  unfold delEntry
  rw [hs0]
  simp only [Option.isSome_some, if_true]
  by_cases he : s0 \ v = ∅
  · rw [if_pos he, if_pos he]
    exact dlookup_dpop_self kw k
  · rw [if_neg he, if_neg he, dlookup_dset_self, hs0]
    rfl

theorem delEntry_absent_self (kw : KwTable) (k : String) (v : Finset String)
    (hs0 : dlookup kw k = none) :
    dlookup (delEntry kw (k, some v)) k = none := by
  unfold delEntry
  rw [hs0]
  simp only [Option.isSome_none, Bool.false_eq_true, if_false]
  exact hs0

theorem delEntry_marker (kw : KwTable) (k : String) (v : Finset String)
    (hs0 : dlookup kw k = some none) :
    delEntry kw (k, some v) = kw := by
  unfold delEntry
  rw [hs0]
  rfl

theorem delStep_lookup_notMem (dels : KwTable) :
    ∀ (kw : KwTable) (x : String), x ∉ dels.map Prod.fst →
      dlookup (delKeywordsStep kw dels) x = dlookup kw x := by
  induction dels with
  | nil => intro kw x _; rfl
  | cons p rest ih =>
      intro kw x hx
      rcases p with ⟨k1, v1⟩
      simp only [List.map_cons, List.mem_cons, not_or] at hx
      calc dlookup (delKeywordsStep (delEntry kw (k1, v1)) rest) x
          = dlookup (delEntry kw (k1, v1)) x := ih (delEntry kw (k1, v1)) x hx.2
        _ = dlookup kw x := delEntry_lookup_ne kw k1 v1 hx.1

theorem delEntry_no_empty (kw : KwTable) (p : String × KwVal)
    (hinv : ∀ k s, dlookup kw k = some (some s) → s ≠ ∅) :
    ∀ k s, dlookup (delEntry kw p) k = some (some s) → s ≠ ∅ := by
  intro k s hks
  rcases p with ⟨k1, v1⟩
  by_cases hx : k = k1
  · subst hx
    cases v1 with
    | none =>
        rw [delEntry_bare_self kw k] at hks
        exact Option.noConfusion hks
    | some v =>
        rcases hk : dlookup kw k with _ | w
        · rw [delEntry_absent_self kw k v hk] at hks
          exact Option.noConfusion hks
        · cases w with
          | none =>
              rw [delEntry_marker kw k v hk, hk] at hks
              injection hks with h2
              exact Option.noConfusion h2
          | some s1 =>
              rw [delEntry_subtract_self kw k v s1 hk] at hks
              by_cases he : s1 \ v = ∅
              · rw [if_pos he] at hks
                exact Option.noConfusion hks
              · rw [if_neg he] at hks
                injection hks with h2
                injection h2 with h3
                rw [← h3]
                exact he
  · rw [delEntry_lookup_ne kw k1 v1 hx] at hks
    exact hinv k s hks

/-- C6: taking the table through the delKeywords pass, every key listed
with no value is removed entirely regardless of its prior contents;
every key listed with values has exactly those values subtracted from
its stored set, the key disappearing exactly when the difference is
empty (and staying absent when it was absent); keys not listed are left
unchanged; and no key with an empty value set remains afterwards
(provided, as the program guarantees, none was present beforehand). The
delKeywords table is a Python dict, so its keys are duplicate-free. -/
theorem C6_delKeywords_semantics (kw dels : KwTable)
    (hnd : (dels.map Prod.fst).Nodup) :
    (∀ k, (k, (none : KwVal)) ∈ dels → dlookup (delKeywordsStep kw dels) k = none)
    ∧ (∀ k v s0, (k, some v) ∈ dels → dlookup kw k = some (some s0) →
        dlookup (delKeywordsStep kw dels) k =
          (if s0 \ v = ∅ then none else some (some (s0 \ v))))
    ∧ (∀ k v, (k, some v) ∈ dels → dlookup kw k = none →
        dlookup (delKeywordsStep kw dels) k = none)
    ∧ (∀ k, k ∉ dels.map Prod.fst → dlookup (delKeywordsStep kw dels) k = dlookup kw k)
    ∧ ((∀ k s, dlookup kw k = some (some s) → s ≠ ∅) →
        ∀ k s, dlookup (delKeywordsStep kw dels) k = some (some s) → s ≠ ∅) := by
  induction dels generalizing kw with
  | nil =>
      refine ⟨?_, ?_, ?_, ?_, ?_⟩
      · intro k hk; exact absurd hk (List.not_mem_nil _)
      · intro k v s0 hk; exact absurd hk (List.not_mem_nil _)
      · intro k v hk; exact absurd hk (List.not_mem_nil _)
      · intro k _; rfl
      · intro hinv; exact hinv
  | cons p rest ih =>
      rcases p with ⟨k1, v1⟩
      simp only [List.map_cons, List.nodup_cons] at hnd
      have ihk := ih (delEntry kw (k1, v1)) hnd.2
      have hfold : delKeywordsStep kw ((k1, v1) :: rest) =
          delKeywordsStep (delEntry kw (k1, v1)) rest := rfl
      refine ⟨?_, ?_, ?_, ?_, ?_⟩
      · intro k hk
        rcases List.mem_cons.mp hk with he | hmem
        · have hkk1 : k = k1 := congrArg Prod.fst he
          have hv : v1 = (none : KwVal) := (congrArg Prod.snd he).symm
          have hk1 : k ∉ rest.map Prod.fst := by rw [hkk1]; exact hnd.1
          rw [hfold, delStep_lookup_notMem rest (delEntry kw (k1, v1)) k hk1, hkk1, hv]
          exact delEntry_bare_self kw k1
        · rw [hfold]
          exact ihk.1 k hmem
      · intro k v s0 hk hs0
        rcases List.mem_cons.mp hk with he | hmem
        · have hkk1 : k = k1 := congrArg Prod.fst he
          have hv : v1 = some v := (congrArg Prod.snd he).symm
          have hk1 : k ∉ rest.map Prod.fst := by rw [hkk1]; exact hnd.1
          rw [hfold, delStep_lookup_notMem rest (delEntry kw (k1, v1)) k hk1, hkk1, hv]
          rw [hkk1] at hs0
          exact delEntry_subtract_self kw k1 v s0 hs0
        · have hne : k ≠ k1 := by
            intro he2
            apply hnd.1
            rw [← he2]
            exact List.mem_map_of_mem Prod.fst hmem
          rw [hfold]
          exact ihk.2.1 k v s0 hmem
            (by rw [delEntry_lookup_ne kw k1 v1 hne]; exact hs0)
      · intro k v hk hs0
        rcases List.mem_cons.mp hk with he | hmem
        · have hkk1 : k = k1 := congrArg Prod.fst he
          have hv : v1 = some v := (congrArg Prod.snd he).symm
          have hk1 : k ∉ rest.map Prod.fst := by rw [hkk1]; exact hnd.1
          rw [hfold, delStep_lookup_notMem rest (delEntry kw (k1, v1)) k hk1, hkk1, hv]
          rw [hkk1] at hs0
          exact delEntry_absent_self kw k1 v hs0
        · have hne : k ≠ k1 := by
            intro he2
            apply hnd.1
            rw [← he2]
            exact List.mem_map_of_mem Prod.fst hmem
          rw [hfold]
          exact ihk.2.2.1 k v hmem
            (by rw [delEntry_lookup_ne kw k1 v1 hne]; exact hs0)
      · intro k hk
        simp only [List.map_cons, List.mem_cons, not_or] at hk
        rw [hfold]
        calc dlookup (delKeywordsStep (delEntry kw (k1, v1)) rest) k
            = dlookup (delEntry kw (k1, v1)) k := ihk.2.2.2.1 k hk.2
          _ = dlookup kw k := delEntry_lookup_ne kw k1 v1 hk.1
      · intro hinv
        rw [hfold]
        exact ihk.2.2.2.2 (delEntry_no_empty kw (k1, v1) hinv)

/-! # C1: hierarchical option resolution order -/

theorem applyPrefixFiles_eq (files : List Str) (contents : Str → SlothFile)
    (o : PureOptions) (name : Str) :
    applyPrefixFiles files contents o name =
      ((List.range name.length).filterMap (fun pos =>
        if name.take (pos + 1) ∈ files then some (contents (name.take (pos + 1)))
        else none)).foldl (fun o f => (applySlothFile o f).1) o := by
  unfold applyPrefixFiles
  generalize List.range name.length = l
  induction l generalizing o with
  | nil => rfl
  | cons p t ih =>
      rw [List.foldl_cons, List.filterMap_cons]
      by_cases hm : name.take (p + 1) ∈ files
      · rw [if_pos hm, if_pos hm, List.foldl_cons]
        exact ih _
      · rw [if_neg hm, if_neg hm]
        exact ih o

theorem take_ne_of_length_lt {name : Str} (pos : Nat) (h : pos + 1 < name.length) :
    name.take (pos + 1) ≠ name := by
  intro he
  have hl := congrArg List.length he
  rw [List.length_take] at hl
  omega

/-- C1: a shader resolves its options by applying, in order, the
generator defaults, the directory options file when present, and every
per-name .sloth file whose basename is a prefix of the shader name, in
increasing prefix length, so the most specific file is applied last
(first conjunct); in particular, with default alphaShadows = true, a
directory file turning it off and an exact per-shader file turning it
back on, the shader resolves alphaShadows = true while a sibling with no
matching per-name file resolves alphaShadows = false (second
conjunct). -/
theorem C1_option_resolution_order :
    (∀ (d : PureOptions) (dirF : Option SlothFile) (files : List Str)
       (contents : Str → SlothFile) (name : Str),
      resolveOptions d dirF files contents name =
        ((List.range name.length).filterMap (fun pos =>
          if name.take (pos + 1) ∈ files then some (contents (name.take (pos + 1)))
          else none)).foldl (fun o f => (applySlothFile o f).1)
          (match dirF with
           | some f => (applySlothFile d f).1
           | none => d))
    ∧ (∀ (d : PureOptions) (name sibling : Str), name ≠ [] →
        d.alphaShadows = true →
        (∀ pos, pos < sibling.length → sibling.take (pos + 1) ≠ name) →
        (resolveOptions d (some [Directive.alphaShadowsD false]) [name]
          (fun _ => [Directive.alphaShadowsD true]) name).alphaShadows = true ∧
        (resolveOptions d (some [Directive.alphaShadowsD false]) [name]
          (fun _ => [Directive.alphaShadowsD true]) sibling).alphaShadows = false) := by
  constructor
  · intro d dirF files contents name
    unfold resolveOptions
    exact applyPrefixFiles_eq files contents _ name
  · intro d name sibling hne hd hsib
    constructor
    · rw [show resolveOptions d (some [Directive.alphaShadowsD false]) [name]
          (fun _ => [Directive.alphaShadowsD true]) name =
          applyPrefixFiles [name] (fun _ => [Directive.alphaShadowsD true])
            { d with alphaShadows := false } name from rfl]
      rw [applyPrefixFiles_eq]
      have hlen : ∃ m, name.length = m + 1 := by
        cases name with
        | nil => exact absurd rfl hne
        | cons a t => exact ⟨t.length, rfl⟩
      obtain ⟨m, hm⟩ := hlen
      have hmap : (List.range name.length).filterMap (fun pos =>
          if name.take (pos + 1) ∈ [name]
          then some ((fun _ => [Directive.alphaShadowsD true]) (name.take (pos + 1)))
          else none) = [[Directive.alphaShadowsD true]] := by
        rw [hm, List.range_succ, List.filterMap_append]
        have h1 : (List.range m).filterMap (fun pos =>
            if name.take (pos + 1) ∈ [name]
            then some ((fun _ => [Directive.alphaShadowsD true]) (name.take (pos + 1)))
            else none) = [] := by
          rw [List.filterMap_eq_nil_iff]
          intro pos hpos
          rw [List.mem_range] at hpos
          have hne2 : name.take (pos + 1) ∉ [name] := by
            rw [List.mem_singleton]
            exact take_ne_of_length_lt pos (by omega)
          rw [if_neg hne2]
        have h2 : (List.filterMap (fun pos =>
            if name.take (pos + 1) ∈ [name]
            then some ((fun _ => [Directive.alphaShadowsD true]) (name.take (pos + 1)))
            else none) [m]) = [[Directive.alphaShadowsD true]] := by
          have htake : name.take (m + 1) = name := by
            rw [← hm]
            exact List.take_length name
          have hmem : name.take (m + 1) ∈ [name] := by
            rw [htake]
            exact List.mem_singleton.mpr rfl
          simp only [List.filterMap_cons, if_pos hmem, List.filterMap_nil]
        rw [h1, h2, List.nil_append]
      rw [hmap]
      rfl
    · rw [show resolveOptions d (some [Directive.alphaShadowsD false]) [name]
          (fun _ => [Directive.alphaShadowsD true]) sibling =
          applyPrefixFiles [name] (fun _ => [Directive.alphaShadowsD true])
            { d with alphaShadows := false } sibling from rfl]
      rw [applyPrefixFiles_eq]
      have hmap : (List.range sibling.length).filterMap (fun pos =>
          if sibling.take (pos + 1) ∈ [name]
          then some ((fun _ => [Directive.alphaShadowsD true]) (sibling.take (pos + 1)))
          else none) = [] := by
        rw [List.filterMap_eq_nil_iff]
        intro pos hpos
        rw [List.mem_range] at hpos
        have hne2 : sibling.take (pos + 1) ∉ [name] := by
          rw [List.mem_singleton]
          exact hsib pos hpos
        rw [if_neg hne2]
      rw [hmap]
      rfl

/-- Witness for C1: shader wall with files options.sloth (off) and
wall.sloth (on) resolves alphaShadows on; sibling door resolves off. -/
theorem C1_option_resolution_order_witness :
    (resolveOptions defaultOptions (some [Directive.alphaShadowsD false]) [chars "wall"]
      (fun _ => [Directive.alphaShadowsD true]) (chars "wall")).alphaShadows = true ∧
    (resolveOptions defaultOptions (some [Directive.alphaShadowsD false]) [chars "wall"]
      (fun _ => [Directive.alphaShadowsD true]) (chars "door")).alphaShadows = false :=
  C1_option_resolution_order.2 defaultOptions (chars "wall") (chars "door")
    (by decide) rfl (by decide)

def exKw : KwTable :=
  [("surfaceparm", some ({"trans", "metalsteps"} : Finset String)),
   ("cull", some ({"none"} : Finset String))]

def exDels : KwTable :=
  [("surfaceparm", some ({"metalsteps"} : Finset String)), ("cull", none)]

/-- Witness for C6: subtracting metalsteps from surfaceparm keeps the
key with the reduced set, while the bare cull entry removes the key. -/
theorem C6_delKeywords_semantics_witness :
    dlookup (delKeywordsStep exKw exDels) "cull" = none ∧
    dlookup (delKeywordsStep exKw exDels) "surfaceparm" =
      (if ({"trans", "metalsteps"} : Finset String) \ {"metalsteps"} = ∅ then none
       else some (some (({"trans", "metalsteps"} : Finset String) \ {"metalsteps"}))) :=
  ⟨(C6_delKeywords_semantics exKw exDels (by decide)).1 "cull" (by decide),
   (C6_delKeywords_semantics exKw exDels (by decide)).2.1 "surfaceparm"
     {"metalsteps"} {"trans", "metalsteps"} (by decide) (by decide)⟩

/-! # C5: alpha-test policy versus the binary-alpha heuristic

The claim (and the specification, which mandates that explicit
configuration overrides the binary-alpha heuristic) requires the
emitter to honor every configured alpha-test policy, including the
numeric threshold 0.0. __setAlphaTest deliberately accepts 0.0 as a
valid policy (0 <= test <= 1, line 194) and stores it without error, but
the diffuse stage guards the policy with Python truthiness
(if shader["options"]["alphaTest"]:, line 816), under which the float
0.0 is falsy, so a configured 0.0 is silently treated as unconfigured
and the binary-alpha fallback fires instead. -/

/-- C5 evaluation at the failing input: alphaTest = 0.0 is accepted and
stored by the setter without an error, yet the diffuse stage emits
alphaFunc GE128 (binary alpha) or smooth blending (non-binary) instead
of the configured alphaTest 0.00 keyword; truthy policies (a named test
or a nonzero threshold) are honored. -/
theorem C5_alpha_test_zero_ignored :
    (setAlphaTest (.flt 0) defaultOptions).1.alphaTest = some (.num 0) ∧
    (setAlphaTest (.flt 0) defaultOptions).2 = [] ∧
    diffuseAlphaStageKey { defaultOptions with alphaTest := some (.num 0) }
      { emptyMeta with diffuseAlpha := some true, diffuseAlphaBin := some true } =
      .alphaFuncK "GE128" ∧
    diffuseAlphaStageKey { defaultOptions with alphaTest := some (.num 0) }
      { emptyMeta with diffuseAlpha := some true, diffuseAlphaBin := some false } =
      .blendBlend ∧
    diffuseAlphaStageKey { defaultOptions with alphaTest := some (.num 1) }
      { emptyMeta with diffuseAlpha := some true, diffuseAlphaBin := some true } =
      .alphaTestK 1 ∧
    diffuseAlphaStageKey { defaultOptions with alphaTest := some (.nm "GT0") }
      { emptyMeta with diffuseAlpha := some true, diffuseAlphaBin := some true } =
      .alphaFuncK "GT0" := by
  refine ⟨rfl, rfl, rfl, rfl, rfl, rfl⟩

/-! # C8: malformed configuration values -/

/-- C8 as stated is false: an invalid alpha-test value does not leave
the alphaTest field at its prior value; __setAlphaTest resets it to None
on the error path (lines 200-202). -/
theorem C8_counterexample :
    (setAlphaTest (.str "FOO")
      { defaultOptions with alphaTest := some (.nm "GE128") }).1.alphaTest = none ∧
    (setAlphaTest (.str "FOO")
      { defaultOptions with alphaTest := some (.nm "GE128") }).1.alphaTest ≠
      some (.nm "GE128") ∧
    (setAlphaTest (.str "FOO")
      { defaultOptions with alphaTest := some (.nm "GE128") }).2 ≠ [] := by
  refine ⟨by decide, by decide, by decide⟩

/-- C8 amended: a malformed configuration value is reported and leaves
the rest of the bundle unchanged; the specific field retains its prior
value for invalid color tokens, unsupported renderer names and
out-of-range editor opacities, but an invalid alpha-test value (a
non-enumerated name or an out-of-range number) resets the alphaTest
field to None, discarding any prior policy. -/
theorem C8_invalid_value_recovery (o : PureOptions) :
    (∀ r, r ∉ supportedRenderers →
      setRenderer r o = (o, ["Renderer " ++ r ++ " not supported."])) ∧
    (∀ q, ¬(0 < q ∧ q ≤ 1) →
      setEditorOpacity q o = (o, ["Editor transparency must be a float in ]0,1]."])) ∧
    (∀ nm c, ¬ isHexColor c = true →
      addLightColor nm c o =
        (o, ["Not a valid color: " ++ c ++ ". Format is [0-9][a-f]{6}."])) ∧
    (∀ s, ¬(s = "GT0" ∨ s = "GE128" ∨ s = "LT128") →
      setAlphaTest (.str s) o = ({ o with alphaTest := none },
        ["Alpha test must be either None, a valid string or a float in [0,1]."])) ∧
    (∀ q, ¬(0 ≤ q ∧ q ≤ 1) →
      setAlphaTest (.flt q) o = ({ o with alphaTest := none },
        ["Alpha test must be either None, a valid string or a float in [0,1]."])) := by
  refine ⟨?_, ?_, ?_, ?_, ?_⟩
  · intro r hr
    unfold setRenderer
    rw [if_neg hr]
  · intro q hq
    unfold setEditorOpacity
    rw [if_neg hq]
  · intro nm c hc
    unfold addLightColor
    rw [if_neg hc]
  · intro s hs
    simp only [setAlphaTest]
    rw [if_neg hs]
  · intro q hq
    simp only [setAlphaTest]
    rw [if_neg hq]

/-- Witness for the amended C8 at concrete malformed values. -/
theorem C8_invalid_value_recovery_witness :
    setRenderer "opengl" defaultOptions =
      (defaultOptions, ["Renderer " ++ "opengl" ++ " not supported."]) ∧
    setEditorOpacity 2 defaultOptions =
      (defaultOptions, ["Editor transparency must be a float in ]0,1]."]) ∧
    addLightColor "red" "xyz" defaultOptions =
      (defaultOptions, ["Not a valid color: " ++ "xyz" ++ ". Format is [0-9][a-f]{6}."]) ∧
    setAlphaTest (.str "FOO") defaultOptions = ({ defaultOptions with alphaTest := none },
      ["Alpha test must be either None, a valid string or a float in [0,1]."]) ∧
    setAlphaTest (.flt 2) defaultOptions = ({ defaultOptions with alphaTest := none },
      ["Alpha test must be either None, a valid string or a float in [0,1]."]) :=
  ⟨(C8_invalid_value_recovery defaultOptions).1 "opengl" (by decide),
   (C8_invalid_value_recovery defaultOptions).2.1 2 (by norm_num),
   (C8_invalid_value_recovery defaultOptions).2.2.1 "red" "xyz" (by decide),
   (C8_invalid_value_recovery defaultOptions).2.2.2.1 "FOO" (by decide),
   (C8_invalid_value_recovery defaultOptions).2.2.2.2 2 (by norm_num)⟩

/-! # C9: emission lookup errors -/

def exSets : Sets := [(chars "set1", [(chars "wall", exShaderPlain)])]

/-- C9 as stated is false: a request for a shader name absent from an
existing Set yields no shader output, but no error is reported — the
loop silently skips it (the continue on line 723). -/
theorem C9_counterexample :
    (getShaderBlocks exSets (some (chars "set1")) (some (chars "missing"))).errors = [] ∧
    (getShaderBlocks exSets (some (chars "set1")) (some (chars "missing"))).output =
      some [] ∧
    (getShaderBlocks exSets (some (chars "set1")) (some (chars "missing"))).state =
      exSets := by
  refine ⟨rfl, rfl, rfl⟩

/-- C9 amended: requesting an unknown Set name reports an error and
yields no output at all (the Python function returns None); requesting a
shader name absent from an existing Set yields no shader blocks but is
skipped silently, with no error reported. In both cases the stored sets
are unchanged. -/
theorem C9_unknown_lookup_behavior :
    (∀ (sets : Sets) (sn : Str) (shn : Option Str), dlookup sets sn = none →
      getShaderBlocks sets (some sn) shn =
        { state := sets, output := none,
          errors := ["Unknown set " ++ String.mk sn ++ "."] }) ∧
    (∀ (sets : Sets) (sn : Str) (set1 : List (Str × Shader)) (shn : Str),
      dlookup sets sn = some set1 → dlookup set1 shn = none →
      getShaderBlocks sets (some sn) (some shn) =
        { state := sets, output := some [], errors := [] }) := by
  constructor
  · intro sets sn shn hnone
    simp only [getShaderBlocks, hnone, Option.isSome_none, Bool.false_eq_true, if_false]
  · intro sets sn set1 shn h1 h2
    simp only [getShaderBlocks, h1, Option.isSome_some, if_true, Option.getD_some,
      List.foldl_cons, List.foldl_nil, h2, Option.isSome_none, Bool.false_eq_true,
      if_false]

/-- Witness for the amended C9 at a concrete stored set. -/
theorem C9_unknown_lookup_behavior_witness :
    getShaderBlocks exSets (some (chars "nosuch")) none =
      { state := exSets, output := none,
        errors := ["Unknown set " ++ String.mk (chars "nosuch") ++ "."] } ∧
    getShaderBlocks exSets (some (chars "set1")) (some (chars "missing")) =
      { state := exSets, output := some [], errors := [] } :=
  ⟨C9_unknown_lookup_behavior.1 exSets (chars "nosuch") none (by decide),
   C9_unknown_lookup_behavior.2 exSets (chars "set1") [(chars "wall", exShaderPlain)]
     (chars "missing") (by decide) (by decide)⟩

/-! # C7: deep-copied bundles are disjoint in the heap -/

theorem dlookup_none_of_lt {h : List (Nat × HNode)} {n : Nat}
    (hk : ∀ p ∈ h, p.1 < n) {x : Nat} (hx : n ≤ x) : dlookup h x = none := by
  induction h with
  | nil => rfl
  | cons p rest ih =>
      rcases p with ⟨k, nd⟩
      rw [dlookup_cons]
      have hne : x ≠ k := by
        have := hk (k, nd) (by simp)
        omega
      rw [if_neg hne]
      exact ih (fun q hq => hk q (by simp [hq]))

theorem dlookup_none_of_ge {h : List (Nat × HNode)} {n : Nat}
    (hk : ∀ p ∈ h, n ≤ p.1) {x : Nat} (hx : x < n) : dlookup h x = none := by
  induction h with
  | nil => rfl
  | cons p rest ih =>
      rcases p with ⟨k, nd⟩
      rw [dlookup_cons]
      have hne : x ≠ k := by
        have := hk (k, nd) (by simp)
        omega
      rw [if_neg hne]
      exact ih (fun q hq => hk q (by simp [hq]))

theorem dlookup_ext_lt {s s2 : HStore} {es : List (Nat × HNode)}
    (hwf : heapKeysLt s) (hh : s2.heap = s.heap ++ es) (hes : ∀ p ∈ es, s.next ≤ p.1) :
    ∀ x, x < s.next → dlookup s2.heap x = dlookup s.heap x := by
  intro x hx
  rw [hh]
  rcases hlx : dlookup s.heap x with _ | w
  · rw [dlookup_append_none _ hlx]
    exact dlookup_none_of_ge hes hx
  · exact dlookup_append_some _ hlx

theorem allocH_fst (s : HStore) (nd : HNode) : (allocH s nd).1 = s.next := rfl

theorem allocH_heap (s : HStore) (nd : HNode) :
    (allocH s nd).2.heap = s.heap ++ [(s.next, nd)] := rfl

theorem allocH_next (s : HStore) (nd : HNode) : (allocH s nd).2.next = s.next + 1 := rfl

theorem heapKeysLt_allocH {s : HStore} (nd : HNode) (hwf : heapKeysLt s) :
    heapKeysLt (allocH s nd).2 := by
  intro p hp
  rw [allocH_heap] at hp
  rw [allocH_next]
  rcases List.mem_append.mp hp with h | h
  · have := hwf p h
    omega
  · rw [List.mem_singleton] at h
    rw [h]
    omega

theorem dlookup_allocH_self {s : HStore} (nd : HNode) (hwf : heapKeysLt s) :
    dlookup (allocH s nd).2.heap s.next = some nd := by
  rw [allocH_heap]
  rw [dlookup_append_none _ (dlookup_none_of_lt hwf (le_refl s.next))]
  rw [dlookup_cons, if_pos rfl]

theorem readKw_ext {s s2 : HStore} {a : Nat} {d : List (String × KwVal)}
    (hh : ∃ es, s2.heap = s.heap ++ es) (hr : readKw s a = some d) : readKw s2 a = some d := by
  obtain ⟨es, hes⟩ := hh
  unfold readKw at hr ⊢
  rcases hl : dlookup s.heap a with _ | nd
  · rw [hl] at hr
    exact Option.noConfusion hr
  · rw [hl] at hr
    rw [hes, dlookup_append_some _ hl]
    exact hr

theorem readKwSecs_ext {s s2 : HStore} (hh : ∃ es, s2.heap = s.heap ++ es) :
    ∀ (krefs : List (String × Nat)) (l : List (String × List (String × KwVal))),
      readKwSecs s krefs = some l → readKwSecs s2 krefs = some l := by
  intro krefs
  induction krefs with
  | nil =>
      intro l hr
      exact hr
  | cons q rest ih =>
      intro l hr
      unfold readKwSecs at hr ⊢
      rcases h1 : readKw s q.2 with _ | d
      · rw [h1] at hr
        exact Option.noConfusion hr
      · rcases h2 : readKwSecs s rest with _ | ds
        · rw [h1, h2] at hr
          exact Option.noConfusion hr
        · rw [h1, h2] at hr
          rw [readKw_ext hh h1, ih ds h2]
          exact hr

theorem readColors_ext {s s2 : HStore} {a : Nat} {d : List (String × RGB)}
    (hh : ∃ es, s2.heap = s.heap ++ es) (hr : readColors s a = some d) :
    readColors s2 a = some d := by
  obtain ⟨es, hes⟩ := hh
  unfold readColors at hr ⊢
  rcases hl : dlookup s.heap a with _ | nd
  · rw [hl] at hr
    exact Option.noConfusion hr
  · rw [hl] at hr
    rw [hes, dlookup_append_some _ hl]
    exact hr

theorem readInts_ext {s s2 : HStore} {a : Nat} {d : List (String × Int)}
    (hh : ∃ es, s2.heap = s.heap ++ es) (hr : readInts s a = some d) :
    readInts s2 a = some d := by
  obtain ⟨es, hes⟩ := hh
  unfold readInts at hr ⊢
  rcases hl : dlookup s.heap a with _ | nd
  · rw [hl] at hr
    exact Option.noConfusion hr
  · rw [hl] at hr
    rw [hes, dlookup_append_some _ hl]
    exact hr

theorem hext_trans {a b c : HStore} (h1 : ∃ es, b.heap = a.heap ++ es)
    (h2 : ∃ es, c.heap = b.heap ++ es) : ∃ es, c.heap = a.heap ++ es := by
  obtain ⟨e1, he1⟩ := h1
  obtain ⟨e2, he2⟩ := h2
  exact ⟨e1 ++ e2, by rw [he2, he1, List.append_assoc]⟩

theorem mem_of_dlookup {κ α : Type} [DecidableEq κ] {h : List (κ × α)} {x : κ} {v : α} :
    dlookup h x = some v → (x, v) ∈ h := by
  induction h with
  | nil => intro hl; exact Option.noConfusion hl
  | cons p rest ih =>
      rcases p with ⟨k, w⟩
      intro hl
      rw [dlookup_cons] at hl
      by_cases hk : x = k
      · rw [if_pos hk] at hl
        injection hl with hv
        rw [hk, hv]
        exact List.mem_cons_self _ _
      · rw [if_neg hk] at hl
        exact List.mem_cons_of_mem _ (ih hl)

theorem key_lt_of_dlookup {s : HStore} (hwf : heapKeysLt s) {x : Nat} {nd : HNode}
    (hl : dlookup s.heap x = some nd) : x < s.next :=
  hwf (x, nd) (mem_of_dlookup hl)

theorem allocKwSecs_cons (s : HStore) (p : String × List (String × KwVal))
    (rest : List (String × List (String × KwVal))) :
    allocKwSecs s (p :: rest) =
      ((p.1, s.next) :: (allocKwSecs (allocH s (.kwN p.2)).2 rest).1,
       (allocKwSecs (allocH s (.kwN p.2)).2 rest).2) := rfl

theorem allocKwSecs_spec :
    ∀ (l : List (String × List (String × KwVal))) (s : HStore), heapKeysLt s →
      ∃ es, (allocKwSecs s l).2.heap = s.heap ++ es ∧ (∀ p ∈ es, s.next ≤ p.1) ∧
        (allocKwSecs s l).2.next = s.next + l.length ∧
        heapKeysLt (allocKwSecs s l).2 ∧
        (∀ q ∈ (allocKwSecs s l).1, s.next ≤ q.2 ∧ q.2 < s.next + l.length) ∧
        readKwSecs (allocKwSecs s l).2 (allocKwSecs s l).1 = some l := by
  intro l
  induction l with
  | nil =>
      intro s hwf
      exact ⟨[], by simp [allocKwSecs], by simp, by simp [allocKwSecs], hwf,
        by simp [allocKwSecs], rfl⟩
  | cons p rest ih =>
      intro s hwf
      rcases p with ⟨nm, d⟩
      have hwf1 : heapKeysLt (allocH s (.kwN d)).2 := heapKeysLt_allocH _ hwf
      obtain ⟨es1, hh1, hk1, hn1, hwf2, hb1, hrb1⟩ := ih (allocH s (.kwN d)).2 hwf1
      rw [allocKwSecs_cons]
      refine ⟨(s.next, .kwN d) :: es1, ?_, ?_, ?_, ?_, ?_, ?_⟩
      · rw [hh1, allocH_heap]
        simp [List.append_assoc]
      · intro q hq
        rcases List.mem_cons.mp hq with he | hm
        · rw [he]
        · have := hk1 q hm
          rw [allocH_next] at this
          omega
      · rw [hn1, allocH_next, List.length_cons]
        omega
      · exact hwf2
      · intro q hq
        rcases List.mem_cons.mp hq with he | hm
        · rw [he]
          have hnext := hn1
          rw [allocH_next] at hnext
          simp only [List.length_cons]
          omega
        · have := hb1 q hm
          rw [allocH_next] at this
          simp only [List.length_cons]
          omega
      · unfold readKwSecs
        have hhead : readKw (allocKwSecs (allocH s (.kwN d)).2 rest).2 s.next =
            some d := by
          unfold readKw
          rw [hh1, dlookup_append_some _ (dlookup_allocH_self (.kwN d) hwf)]
        rw [hhead, hrb1]

theorem hextb_trans {a b c : HStore}
    (hab : ∃ es, b.heap = a.heap ++ es ∧ ∀ p ∈ es, a.next ≤ p.1)
    (hbc : ∃ es, c.heap = b.heap ++ es ∧ ∀ p ∈ es, b.next ≤ p.1)
    (hn : a.next ≤ b.next) :
    ∃ es, c.heap = a.heap ++ es ∧ ∀ p ∈ es, a.next ≤ p.1 := by
  obtain ⟨e1, h1, k1⟩ := hab
  obtain ⟨e2, h2, k2⟩ := hbc
  refine ⟨e1 ++ e2, by rw [h2, h1, List.append_assoc], ?_⟩
  intro p hp
  rcases List.mem_append.mp hp with h | h
  · exact k1 p h
  · have := k2 p h
    omega

theorem hextb_allocH (s : HStore) (nd : HNode) :
    ∃ es, (allocH s nd).2.heap = s.heap ++ es ∧ ∀ p ∈ es, s.next ≤ p.1 :=
  ⟨[(s.next, nd)], allocH_heap s nd, by intro p hp; rw [List.mem_singleton] at hp; rw [hp]⟩

theorem allocView_spec (s : HStore) (v : OptsView) (hwf : heapKeysLt s) :
    ∃ es, (allocView s v).2.heap = s.heap ++ es ∧ (∀ p ∈ es, s.next ≤ p.1) ∧
      s.next < (allocView s v).2.next ∧
      heapKeysLt (allocView s v).2 ∧
      readView (allocView s v).2 (allocView s v).1 = some v ∧
      (∀ a ∈ footprint (allocView s v).2 (allocView s v).1,
        s.next ≤ a ∧ a < (allocView s v).2.next) := by
  obtain ⟨vs, vc, vu, vp, vk⟩ := v
  have hwf1 : heapKeysLt (allocH s (.colorsN vc)).2 := heapKeysLt_allocH _ hwf
  have hwf2 : heapKeysLt (allocH (allocH s (.colorsN vc)).2 (.intsN vu)).2 :=
    heapKeysLt_allocH _ hwf1
  have hwf3 : heapKeysLt (allocH (allocH (allocH s (.colorsN vc)).2 (.intsN vu)).2
      (.intsN vp)).2 := heapKeysLt_allocH _ hwf2
  obtain ⟨esk, hhk, hkk, hnk, hwfk, hbk, hrbk⟩ :=
    allocKwSecs_spec vk (allocH (allocH (allocH s (.colorsN vc)).2 (.intsN vu)).2
      (.intsN vp)).2 hwf3
  set s1 := (allocH s (.colorsN vc)).2 with hds1
  set s2 := (allocH s1 (.intsN vu)).2 with hds2
  set s3 := (allocH s2 (.intsN vp)).2 with hds3
  set sk := (allocKwSecs s3 vk).2 with hdsk
  set kr := (allocKwSecs s3 vk).1 with hdkr
  have hn1 : s1.next = s.next + 1 := allocH_next s _
  have hn2 : s2.next = s.next + 2 := by rw [allocH_next, hn1]
  have hn3 : s3.next = s.next + 3 := by rw [allocH_next, hn2]
  have hnk2 : sk.next = s.next + 3 + vk.length := by rw [hnk, hn3]
  set fin := allocH sk (.optsN vs s.next (s.next + 1) (s.next + 2) kr) with hdfin
  have hpick : allocView s ⟨vs, vc, vu, vp, vk⟩ = fin := rfl
  have hextk : ∃ es, sk.heap = s3.heap ++ es ∧ ∀ p ∈ es, s3.next ≤ p.1 :=
    ⟨esk, hhk, hkk⟩
  have ha1 : (allocH s (.colorsN vc)).2.next = s.next + 1 := hn1
  have ha2 : (allocH s1 (.intsN vu)).2.next = s.next + 2 := hn2
  have ha3 : (allocH s2 (.intsN vp)).2.next = s.next + 3 := hn3
  have hak : (allocKwSecs s3 vk).2.next = s.next + 3 + vk.length := hnk2
  have haf : (allocH sk (.optsN vs s.next (s.next + 1) (s.next + 2) kr)).2.next =
      sk.next + 1 := rfl
  have hES : ∃ es, fin.2.heap = s.heap ++ es ∧ ∀ p ∈ es, s.next ≤ p.1 := by
    apply hextb_trans (hextb_allocH s (.colorsN vc))
    · apply hextb_trans (hextb_allocH s1 (.intsN vu))
      · apply hextb_trans (hextb_allocH s2 (.intsN vp))
        · exact hextb_trans hextk (hextb_allocH sk _) (by omega)
        · omega
      · omega
    · omega
  have hext2f : ∃ es, fin.2.heap = s1.heap ++ es := by
    obtain ⟨e, he, _⟩ := hextb_trans (hextb_allocH s1 (.intsN vu))
      (hextb_trans (hextb_allocH s2 (.intsN vp))
        (hextb_trans hextk (hextb_allocH sk _) (by omega)) (by omega)) (by omega)
    exact ⟨e, he⟩
  have hext3f : ∃ es, fin.2.heap = s2.heap ++ es := by
    obtain ⟨e, he, _⟩ := hextb_trans (hextb_allocH s2 (.intsN vp))
      (hextb_trans hextk (hextb_allocH sk _) (by omega)) (by omega)
    exact ⟨e, he⟩
  have hextkf : ∃ es, fin.2.heap = sk.heap ++ es := ⟨_, allocH_heap sk _⟩
  have hread_c : readColors fin.2 s.next = some vc := by
    apply readColors_ext hext2f
    unfold readColors
    rw [dlookup_allocH_self _ hwf]
  have hread_u : readInts fin.2 (s.next + 1) = some vu := by
    apply readInts_ext hext3f
    unfold readInts
    rw [← hn1, dlookup_allocH_self _ hwf1]
  have hext3kf : ∃ es, fin.2.heap = s3.heap ++ es :=
    hext_trans ⟨esk, hhk⟩ hextkf
  have hread_p : readInts fin.2 (s.next + 2) = some vp := by
    apply readInts_ext hext3kf
    unfold readInts
    rw [← hn2, dlookup_allocH_self _ hwf2]
  have hread_k : readKwSecs fin.2 kr = some vk :=
    readKwSecs_ext hextkf kr vk hrbk
  have hread_r : dlookup fin.2.heap sk.next =
      some (.optsN vs s.next (s.next + 1) (s.next + 2) kr) :=
    dlookup_allocH_self _ hwfk
  have hfst : fin.1 = sk.next := rfl
  obtain ⟨es, hE1, hE2⟩ := hES
  rw [hpick]
  refine ⟨es, hE1, hE2, ?_, ?_, ?_, ?_⟩
  · show s.next < sk.next + 1
    omega
  · exact heapKeysLt_allocH _ hwfk
  · rw [hfst]
    unfold readView
    simp only [hread_r, hread_c, hread_u, hread_p, hread_k]
  · intro a ha
    rw [hfst] at ha
    unfold footprint at ha
    simp only [hread_r] at ha
    have hnextf : fin.2.next = sk.next + 1 := allocH_next sk _
    rcases List.mem_cons.mp ha with h | ha
    · rw [h, hnextf]
      omega
    rcases List.mem_cons.mp ha with h | ha
    · rw [h, hnextf]
      omega
    rcases List.mem_cons.mp ha with h | ha
    · rw [h, hnextf]
      omega
    rcases List.mem_cons.mp ha with h | ha
    · rw [h, hnextf]
      omega
    · obtain ⟨q, hq, hqa⟩ := List.mem_map.mp ha
      have := hbk q hq
      rw [hn3] at this
      rw [← hqa, hnextf]
      omega

theorem deepcopy_spec {s : HStore} {r : Nat} {v : OptsView}
    (hwf : heapKeysLt s) (hr : readView s r = some v) :
    ∃ r2 s2, deepcopyOptions s r = some (r2, s2) ∧ heapKeysLt s2 ∧ s.next < s2.next ∧
      (∀ x, x < s.next → dlookup s2.heap x = dlookup s.heap x) ∧
      readView s2 r2 = some v ∧
      (∀ a ∈ footprint s2 r2, s.next ≤ a ∧ a < s2.next) := by
  obtain ⟨es, hE1, hE2, hnext, hwf2, hread, hfp⟩ := allocView_spec s v hwf
  refine ⟨(allocView s v).1, (allocView s v).2, ?_, hwf2, hnext, ?_, hread, hfp⟩
  · unfold deepcopyOptions
    rw [hr]
  · exact dlookup_ext_lt hwf hE1 hE2

theorem readKwSecs_pres {s s2 : HStore}
    (hlk : ∀ x, x < s.next → dlookup s2.heap x = dlookup s.heap x)
    (hwf : heapKeysLt s) :
    ∀ (krefs : List (String × Nat)) (l : List (String × List (String × KwVal))),
      readKwSecs s krefs = some l → readKwSecs s2 krefs = some l := by
  intro krefs
  induction krefs with
  | nil => intro l h; exact h
  | cons q rest ih =>
      intro l h
      unfold readKwSecs at h ⊢
      rcases h1 : readKw s q.2 with _ | d
      · rw [h1] at h
        exact Option.noConfusion h
      · rcases h2 : readKwSecs s rest with _ | ds
        · rw [h1, h2] at h
          exact Option.noConfusion h
        · rw [h1, h2] at h
          have hq : readKw s2 q.2 = some d := by
            unfold readKw at h1 ⊢
            rcases hl : dlookup s.heap q.2 with _ | nd
            · rw [hl] at h1
              exact Option.noConfusion h1
            · rw [hl] at h1
              rw [hlk q.2 (key_lt_of_dlookup hwf hl), hl]
              exact h1
          rw [hq, ih ds h2]
          exact h

theorem readView_pres {s s2 : HStore}
    (hlk : ∀ x, x < s.next → dlookup s2.heap x = dlookup s.heap x)
    (hwf : heapKeysLt s) {r : Nat} {v : OptsView} (hr : readView s r = some v) :
    readView s2 r = some v := by
  unfold readView at hr ⊢
  rcases hl : dlookup s.heap r with _ | nd
  · simp only [hl] at hr
    exact Option.noConfusion hr
  · rw [hlk r (key_lt_of_dlookup hwf hl), hl]
    simp only [hl] at hr
    cases nd with
    | colorsN d => exact hr
    | intsN d => exact hr
    | kwN d => exact hr
    | optsN scal cr ur pr kws =>
        rcases hc : readColors s cr with _ | cd
        · simp only [hc] at hr
          exact Option.noConfusion hr
        rcases hu : readInts s ur with _ | ud
        · simp only [hc, hu] at hr
          exact Option.noConfusion hr
        rcases hp : readInts s pr with _ | pd
        · simp only [hc, hu, hp] at hr
          exact Option.noConfusion hr
        rcases hk : readKwSecs s kws with _ | kd
        · simp only [hc, hu, hp, hk] at hr
          exact Option.noConfusion hr
        simp only [hc, hu, hp, hk] at hr
        have hc2 : readColors s2 cr = some cd := by
          unfold readColors at hc ⊢
          rcases hl2 : dlookup s.heap cr with _ | nd2
          · rw [hl2] at hc
            exact Option.noConfusion hc
          · rw [hl2] at hc
            rw [hlk cr (key_lt_of_dlookup hwf hl2), hl2]
            exact hc
        have hu2 : readInts s2 ur = some ud := by
          unfold readInts at hu ⊢
          rcases hl2 : dlookup s.heap ur with _ | nd2
          · rw [hl2] at hu
            exact Option.noConfusion hu
          · rw [hl2] at hu
            rw [hlk ur (key_lt_of_dlookup hwf hl2), hl2]
            exact hu
        have hp2 : readInts s2 pr = some pd := by
          unfold readInts at hp ⊢
          rcases hl2 : dlookup s.heap pr with _ | nd2
          · rw [hl2] at hp
            exact Option.noConfusion hp
          · rw [hl2] at hp
            rw [hlk pr (key_lt_of_dlookup hwf hl2), hl2]
            exact hp
        have hk2 : readKwSecs s2 kws = some kd := readKwSecs_pres hlk hwf kws kd hk
        simp only [hc2, hu2, hp2, hk2]
        exact hr

theorem footprint_pres {s s2 : HStore}
    (hlk : ∀ x, x < s.next → dlookup s2.heap x = dlookup s.heap x)
    {r : Nat} (hkey : r < s.next) : footprint s2 r = footprint s r := by
  unfold footprint
  rw [hlk r hkey]

theorem readKwSecs_write_ne {s : HStore} {a : Nat} (nd : HNode) :
    ∀ (kws : List (String × Nat)), (∀ q ∈ kws, q.2 ≠ a) →
      readKwSecs (writeH s a nd) kws = readKwSecs s kws := by
  intro kws
  induction kws with
  | nil => intro _; rfl
  | cons q rest ih =>
      intro hka
      unfold readKwSecs
      have hq : readKw (writeH s a nd) q.2 = readKw s q.2 := by
        unfold readKw
        have hlw : dlookup (writeH s a nd).heap q.2 = dlookup s.heap q.2 :=
          dlookup_dset_ne s.heap nd (hka q (List.mem_cons_self _ _))
        rw [hlw]
      rw [hq, ih (fun q2 hq2 => hka q2 (List.mem_cons_of_mem _ hq2))]

/-- The frame property of a heap write: mutating any object outside a
bundle's footprint leaves that bundle's observed value unchanged. -/
theorem readView_frame {s : HStore} {r a : Nat} (nd : HNode)
    (ha : a ∉ footprint s r) : readView (writeH s a nd) r = readView s r := by
  unfold footprint at ha
  have hlw : ∀ x, x ≠ a → dlookup (writeH s a nd).heap x = dlookup s.heap x := by
    intro x hx
    exact dlookup_dset_ne s.heap nd hx
  rcases hl : dlookup s.heap r with _ | nd0
  · rw [hl] at ha
    have hra : r ≠ a := by
      intro he
      exact ha (by rw [he]; exact List.mem_singleton.mpr rfl)
    unfold readView
    rw [hlw r hra, hl]
  · rw [hl] at ha
    cases nd0 with
    | colorsN d =>
        have hra : r ≠ a := fun he => ha (by rw [he]; exact List.mem_singleton.mpr rfl)
        unfold readView
        rw [hlw r hra, hl]
    | intsN d =>
        have hra : r ≠ a := fun he => ha (by rw [he]; exact List.mem_singleton.mpr rfl)
        unfold readView
        rw [hlw r hra, hl]
    | kwN d =>
        have hra : r ≠ a := fun he => ha (by rw [he]; exact List.mem_singleton.mpr rfl)
        unfold readView
        rw [hlw r hra, hl]
    | optsN scal cr ur pr kws =>
        simp only [List.mem_cons, not_or] at ha
        have hra : r ≠ a := fun he => ha.1 he.symm
        have hca : cr ≠ a := fun he => ha.2.1 he.symm
        have hua : ur ≠ a := fun he => ha.2.2.1 he.symm
        have hpa : pr ≠ a := fun he => ha.2.2.2.1 he.symm
        have hka : ∀ q ∈ kws, q.2 ≠ a := by
          intro q hq he
          exact ha.2.2.2.2 (he ▸ List.mem_map_of_mem Prod.snd hq)
        unfold readView
        have hcr : readColors (writeH s a nd) cr = readColors s cr := by
          unfold readColors
          rw [hlw cr hca]
        have hur : readInts (writeH s a nd) ur = readInts s ur := by
          unfold readInts
          rw [hlw ur hua]
        have hpr : readInts (writeH s a nd) pr = readInts s pr := by
          unfold readInts
          rw [hlw pr hpa]
        have hkw : readKwSecs (writeH s a nd) kws = readKwSecs s kws :=
          readKwSecs_write_ne nd kws hka
        simp only [hlw r hra, hl, hcr, hur, hpr, hkw]

theorem self_mem_footprint (s : HStore) (r : Nat) : r ∈ footprint s r := by
  unfold footprint
  rcases dlookup s.heap r with _ | nd
  · exact List.mem_singleton.mpr rfl
  · cases nd with
    | colorsN d => exact List.mem_singleton.mpr rfl
    | intsN d => exact List.mem_singleton.mpr rfl
    | kwN d => exact List.mem_singleton.mpr rfl
    | optsN scal cr ur pr kws => exact List.mem_cons_self _ _

theorem copyN_spec :
    ∀ (nsh : Nat) (s : HStore) (src : Nat) (v : OptsView), heapKeysLt s →
      readView s src = some v → src < s.next →
      ∃ roots s2, copyN s src nsh = some (roots, s2) ∧ roots.length = nsh ∧
        heapKeysLt s2 ∧ s.next ≤ s2.next ∧
        (∀ x, x < s.next → dlookup s2.heap x = dlookup s.heap x) ∧
        (∀ r ∈ roots, readView s2 r = some v ∧
          ∀ a ∈ footprint s2 r, s.next ≤ a ∧ a < s2.next) ∧
        (∀ r ∈ roots, ∀ r2 ∈ roots, r ≠ r2 →
          ∀ a ∈ footprint s2 r, a ∉ footprint s2 r2) ∧
        roots.Nodup := by
  intro nsh
  induction nsh with
  | zero =>
      intro s src v hwf hr hsrc
      exact ⟨[], s, rfl, rfl, hwf, le_refl _, fun x _ => rfl,
        fun r hr2 => absurd hr2 (List.not_mem_nil _),
        fun r hr2 => absurd hr2 (List.not_mem_nil _), List.nodup_nil⟩
  | succ m ih =>
      intro s src v hwf hr hsrc
      obtain ⟨r1, s1, hdc, hwf1, hn1, hlk1, hrd1, hfp1⟩ := deepcopy_spec hwf hr
      have hr1lt : r1 < s1.next := (hfp1 r1 (self_mem_footprint s1 r1)).2
      obtain ⟨roots, s2, hcn, hlen, hwf2, hn2, hlk2, hroots, hdisj, hnd⟩ :=
        ih s1 src v hwf1 (readView_pres hlk1 hwf hr) (by omega)
      have hfpr1 : footprint s2 r1 = footprint s1 r1 := footprint_pres hlk2 hr1lt
      refine ⟨r1 :: roots, s2, ?_, ?_, hwf2, by omega, ?_, ?_, ?_, ?_⟩
      · simp only [copyN, hdc, hcn]
      · rw [List.length_cons, hlen]
      · intro x hx
        rw [hlk2 x (by omega), hlk1 x hx]
      · intro r hrm
        rcases List.mem_cons.mp hrm with he | hm
        · rw [he]
          constructor
          · rw [he] at hrm
            exact readView_pres hlk2 hwf1 hrd1
          · intro a ha
            rw [hfpr1] at ha
            have := hfp1 a ha
            omega
        · obtain ⟨hv2, hb2⟩ := hroots r hm
          refine ⟨hv2, ?_⟩
          intro a ha
          have := hb2 a ha
          omega
      · intro r hrm r2 hrm2 hne a ha
        rcases List.mem_cons.mp hrm with he | hm
        · rcases List.mem_cons.mp hrm2 with he2 | hm2
          · rw [he, he2] at hne
            exact absurd rfl hne
          · rw [he, hfpr1] at ha
            have hb := (hfp1 a ha).2
            intro ha2
            have := (hroots r2 hm2).2 a ha2
            omega
        · rcases List.mem_cons.mp hrm2 with he2 | hm2
          · have hb := (hroots r hm).2 a ha
            rw [he2, hfpr1]
            intro ha2
            have := hfp1 a ha2
            omega
          · exact hdisj r hm r2 hm2 hne a ha
      · rw [List.nodup_cons]
        refine ⟨?_, hnd⟩
        intro hmem
        have h1 : r1 ∈ footprint s2 r1 := self_mem_footprint s2 r1
        rw [hfpr1] at h1
        have hb1 := (hfp1 r1 h1).2
        have h2 : r1 ∈ footprint s2 r1 := self_mem_footprint s2 r1
        have := (hroots r1 hmem).2 r1 (self_mem_footprint s2 r1)
        omega

theorem readKwSecs_keys {s : HStore} (hwf : heapKeysLt s) :
    ∀ (krefs : List (String × Nat)) (l : List (String × List (String × KwVal))),
      readKwSecs s krefs = some l → ∀ q ∈ krefs, q.2 < s.next := by
  intro krefs
  induction krefs with
  | nil => intro l _ q hq; exact absurd hq (List.not_mem_nil _)
  | cons p rest ih =>
      intro l h q hq
      unfold readKwSecs at h
      rcases h1 : readKw s p.2 with _ | d
      · rw [h1] at h
        exact Option.noConfusion h
      rcases h2 : readKwSecs s rest with _ | ds
      · rw [h1, h2] at h
        exact Option.noConfusion h
      rcases List.mem_cons.mp hq with he | hm
      · rw [he]
        unfold readKw at h1
        rcases hl : dlookup s.heap p.2 with _ | nd
        · rw [hl] at h1
          exact Option.noConfusion h1
        · exact key_lt_of_dlookup hwf hl
      · exact ih ds h2 q hm

theorem footprint_lt {s : HStore} (hwf : heapKeysLt s) {r : Nat} {v : OptsView}
    (hr : readView s r = some v) : ∀ a ∈ footprint s r, a < s.next := by
  intro a ha
  unfold readView at hr
  unfold footprint at ha
  rcases hl : dlookup s.heap r with _ | nd
  · simp only [hl] at hr
    exact Option.noConfusion hr
  · simp only [hl] at hr ha
    cases nd with
    | colorsN d => exact Option.noConfusion hr
    | intsN d => exact Option.noConfusion hr
    | kwN d => exact Option.noConfusion hr
    | optsN scal cr ur pr kws =>
        rcases hc : readColors s cr with _ | cd
        · simp only [hc] at hr
          exact Option.noConfusion hr
        rcases hu : readInts s ur with _ | ud
        · simp only [hc, hu] at hr
          exact Option.noConfusion hr
        rcases hp : readInts s pr with _ | pd
        · simp only [hc, hu, hp] at hr
          exact Option.noConfusion hr
        rcases hk : readKwSecs s kws with _ | kd
        · simp only [hc, hu, hp, hk] at hr
          exact Option.noConfusion hr
        have hcr : cr < s.next := by
          unfold readColors at hc
          rcases hl2 : dlookup s.heap cr with _ | nd2
          · rw [hl2] at hc
            exact Option.noConfusion hc
          · exact key_lt_of_dlookup hwf hl2
        have hur : ur < s.next := by
          unfold readInts at hu
          rcases hl2 : dlookup s.heap ur with _ | nd2
          · rw [hl2] at hu
            exact Option.noConfusion hu
          · exact key_lt_of_dlookup hwf hl2
        have hpr : pr < s.next := by
          unfold readInts at hp
          rcases hl2 : dlookup s.heap pr with _ | nd2
          · rw [hl2] at hp
            exact Option.noConfusion hp
          · exact key_lt_of_dlookup hwf hl2
        rcases List.mem_cons.mp ha with h | ha
        · rw [h]
          exact key_lt_of_dlookup hwf hl
        rcases List.mem_cons.mp ha with h | ha
        · rw [h]
          exact hcr
        rcases List.mem_cons.mp ha with h | ha
        · rw [h]
          exact hur
        rcases List.mem_cons.mp ha with h | ha
        · rw [h]
          exact hpr
        · obtain ⟨q, hq, hqa⟩ := List.mem_map.mp ha
          rw [← hqa]
          exact readKwSecs_keys hwf kws kd hk q hq

set_option maxHeartbeats 1000000 in
/-- C7: every option bundle attached to a shader is an independent deep
copy. In the heap model of the copy structure of generateSet (one
deepcopy of the generator defaults for the directory bundle, line 612,
then one deepcopy of the directory bundle per shader, line 626), the
footprints (options dict plus every mutable container inside) of the
defaults, the directory bundle and all per-shader bundles are pairwise
disjoint, and writing any node inside one bundle's footprint leaves the
observed value of every other bundle unchanged. -/
theorem C7_bundle_deep_copy_isolation (s0 : HStore) (r0 : Nat) (v0 : OptsView)
    (nsh : Nat) (hwf : heapKeysLt s0) (hr0 : readView s0 r0 = some v0) :
    ∃ dirRoot roots s2, copyChain s0 r0 nsh = some (dirRoot, roots, s2) ∧
      roots.length = nsh ∧
      readView s2 r0 = some v0 ∧
      readView s2 dirRoot = some v0 ∧
      (∀ r ∈ roots, readView s2 r = some v0) ∧
      (r0 :: dirRoot :: roots).Nodup ∧
      (∀ x ∈ r0 :: dirRoot :: roots, ∀ y ∈ r0 :: dirRoot :: roots, x ≠ y →
        ∀ a ∈ footprint s2 x, a ∉ footprint s2 y) ∧
      (∀ x ∈ r0 :: dirRoot :: roots, ∀ a ∈ footprint s2 x, ∀ nd : HNode,
        ∀ y ∈ r0 :: dirRoot :: roots, y ≠ x →
          readView (writeH s2 a nd) y = readView s2 y) := by
  obtain ⟨dr, s1, hdc, hwf1, hn1, hlk1, hrdd, hfpd1⟩ := deepcopy_spec hwf hr0
  have hdrlt : dr < s1.next := (hfpd1 dr (self_mem_footprint s1 dr)).2
  obtain ⟨roots, s2, hcn, hlen, hwf2, hn2, hlk2, hroots, hdisj, hnd⟩ :=
    copyN_spec nsh s1 dr v0 hwf1 hrdd hdrlt
  have hr0lt : r0 < s0.next := by
    unfold readView at hr0
    rcases hl : dlookup s0.heap r0 with _ | nd
    · simp only [hl] at hr0
      exact Option.noConfusion hr0
    · exact key_lt_of_dlookup hwf hl
  have hr0lt1 : r0 < s1.next := by omega
  have hrd0_1 : readView s1 r0 = some v0 := readView_pres hlk1 hwf hr0
  have hrd0_2 : readView s2 r0 = some v0 := readView_pres hlk2 hwf1 hrd0_1
  have hrdd_2 : readView s2 dr = some v0 := readView_pres hlk2 hwf1 hrdd
  have hfp0eq : footprint s2 r0 = footprint s0 r0 := by
    rw [footprint_pres hlk2 hr0lt1, footprint_pres hlk1 hr0lt]
  have hfpdeq : footprint s2 dr = footprint s1 dr := footprint_pres hlk2 hdrlt
  have hfp0 : ∀ a ∈ footprint s2 r0, a < s0.next := by
    intro a ha
    rw [hfp0eq] at ha
    exact footprint_lt hwf hr0 a ha
  have hfpd : ∀ a ∈ footprint s2 dr, s0.next ≤ a ∧ a < s1.next := by
    intro a ha
    rw [hfpdeq] at ha
    exact hfpd1 a ha
  have hfpr : ∀ r ∈ roots, ∀ a ∈ footprint s2 r, s1.next ≤ a ∧ a < s2.next :=
    fun r hm => (hroots r hm).2
  have hDisj : ∀ x ∈ r0 :: dr :: roots, ∀ y ∈ r0 :: dr :: roots, x ≠ y →
      ∀ a ∈ footprint s2 x, a ∉ footprint s2 y := by
    intro x hx y hy hne a ha hay
    rcases List.mem_cons.mp hx with hex | hx2
    · rcases List.mem_cons.mp hy with hey | hy2
      · rw [hex, hey] at hne
        exact absurd rfl hne
      rcases List.mem_cons.mp hy2 with hey | hy3
      · rw [hex] at ha
        rw [hey] at hay
        have h1 := hfp0 a ha
        have h2 := hfpd a hay
        omega
      · rw [hex] at ha
        have h1 := hfp0 a ha
        have h2 := hfpr y hy3 a hay
        omega
    rcases List.mem_cons.mp hx2 with hex | hx3
    · rcases List.mem_cons.mp hy with hey | hy2
      · rw [hex] at ha
        rw [hey] at hay
        have h1 := hfpd a ha
        have h2 := hfp0 a hay
        omega
      rcases List.mem_cons.mp hy2 with hey | hy3
      · rw [hex, hey] at hne
        exact absurd rfl hne
      · rw [hex] at ha
        have h1 := hfpd a ha
        have h2 := hfpr y hy3 a hay
        omega
    · rcases List.mem_cons.mp hy with hey | hy2
      · rw [hey] at hay
        have h1 := hfpr x hx3 a ha
        have h2 := hfp0 a hay
        omega
      rcases List.mem_cons.mp hy2 with hey | hy3
      · rw [hey] at hay
        have h1 := hfpr x hx3 a ha
        have h2 := hfpd a hay
        omega
      · exact hdisj x hx3 y hy3 hne a ha hay
  refine ⟨dr, roots, s2, ?_, hlen, hrd0_2, hrdd_2, fun r hm => (hroots r hm).1, ?_, hDisj, ?_⟩
  · simp only [copyChain, hdc, hcn]
  · rw [List.nodup_cons, List.nodup_cons]
    refine ⟨?_, ?_, hnd⟩
    · intro hmem
      rcases List.mem_cons.mp hmem with he | hm
      · have h1 := hfp0 r0 (self_mem_footprint s2 r0)
        have h2 := hfpd r0 (by rw [← he] at hfpdeq ⊢; exact self_mem_footprint s2 r0)
        omega
      · have h1 := hfp0 r0 (self_mem_footprint s2 r0)
        have h2 := hfpr r0 hm r0 (self_mem_footprint s2 r0)
        omega
    · intro hmem
      have h1 := hfpd dr (self_mem_footprint s2 dr)
      have h2 := hfpr dr hmem dr (self_mem_footprint s2 dr)
      omega
  · intro x hx a ha nd y hy hyx
    exact readView_frame nd (hDisj x hx y hy (fun he => hyx he.symm) a ha)

def exStore : HStore :=
  { heap := [(0, .optsN ⟨false, false, 1, 1, 1, none, true, "xreal"⟩ 1 2 3 [("keywords", 4)]),
             (1, .colorsN []), (2, .intsN []), (3, .intsN []), (4, .kwN [])],
    next := 5 }

def exView : OptsView :=
  ⟨⟨false, false, 1, 1, 1, none, true, "xreal"⟩, [], [], [], [("keywords", [])]⟩

/-- Witness for C7 at a concrete five-node store holding one default
bundle, copied once for the directory and twice for two shaders. -/
theorem C7_bundle_deep_copy_isolation_witness :
    ∃ dirRoot roots s2, copyChain exStore 0 2 = some (dirRoot, roots, s2) ∧
      roots.length = 2 ∧
      readView s2 0 = some exView ∧
      readView s2 dirRoot = some exView ∧
      (∀ r ∈ roots, readView s2 r = some exView) ∧
      (0 :: dirRoot :: roots).Nodup ∧
      (∀ x ∈ 0 :: dirRoot :: roots, ∀ y ∈ 0 :: dirRoot :: roots, x ≠ y →
        ∀ a ∈ footprint s2 x, a ∉ footprint s2 y) ∧
      (∀ x ∈ 0 :: dirRoot :: roots, ∀ a ∈ footprint s2 x, ∀ nd : HNode,
        ∀ y ∈ 0 :: dirRoot :: roots, y ≠ x →
          readView (writeH s2 a nd) y = readView s2 y) :=
  C7_bundle_deep_copy_isolation exStore 0 exView 2 (by unfold heapKeysLt; decide) (by decide)

/-! # C10: every stored record keeps a usable diffuse map -/

theorem foldl_preserve {α β : Type} (P : α → Prop) (f : α → β → α) :
    ∀ (l : List β) (a : α), P a → (∀ a2 b, b ∈ l → P a2 → P (f a2 b)) →
      P (l.foldl f a) := by
  intro l
  induction l with
  | nil => intro a ha _; exact ha
  | cons b t ih =>
      intro a ha hf
      exact ih (f a b) (hf a b (List.mem_cons_self _ _) ha)
        (fun a2 b2 hb2 => hf a2 b2 (List.mem_cons_of_mem _ hb2))

theorem dinsert_pred {κ α : Type} [DecidableEq κ] (P : κ × α → Prop)
    (d : List (κ × α)) (k : κ) (v : α) (hd : ∀ p ∈ d, P p) (hkv : P (k, v)) :
    ∀ p ∈ dinsert d k v, P p := by
  intro p hp
  unfold dinsert at hp
  by_cases hs : (dlookup d k).isSome
  · rw [if_pos hs] at hp
    obtain ⟨q, hq, hqp⟩ := List.mem_map.mp hp
    by_cases hqk : q.1 = k
    · rw [if_pos hqk] at hqp
      rw [← hqp]
      exact hkv
    · rw [if_neg hqk] at hqp
      rw [← hqp]
      exact hd q hq
  · rw [if_neg hs] at hp
    rcases List.mem_append.mp hp with h | h
    · exact hd p h
    · rw [List.mem_singleton] at h
      rw [h]
      exact hkv

theorem dupdate_pred {κ α : Type} [DecidableEq κ] (P : κ × α → Prop) :
    ∀ (new d : List (κ × α)), (∀ p ∈ d, P p) → (∀ p ∈ new, P p) →
      ∀ p ∈ dupdate d new, P p := by
  intro new
  induction new with
  | nil => intro d hd _ p hp; exact hd p hp
  | cons q rest ih =>
      intro d hd hnew p hp
      have hq : P (q.1, q.2) := hnew q (List.mem_cons_self _ _)
      exact ih (dinsert d q.1 q.2)
        (dinsert_pred P d q.1 q.2 hd hq)
        (fun p2 hp2 => hnew p2 (List.mem_cons_of_mem _ hp2)) p hp

theorem setInsert_mem {l : List Str} {x m : Str} (h : m ∈ setInsert l x) :
    m ∈ l ∨ m = x := by
  unfold setInsert at h
  by_cases hx : x ∈ l
  · rw [if_pos hx] at h
    exact Or.inl h
  · rw [if_neg hx] at h
    rcases List.mem_append.mp h with h2 | h2
    · exact Or.inl h2
    · exact Or.inr (List.mem_singleton.mp h2)

/-- The stems scanned into the diffuse candidate set all occur in the
directory listing and end with the diffuse suffix. -/
theorem scan_diffuse_sound (su : Suffixes) (fl : List (Str × Str)) :
    ∀ m ∈ (dlookup (scanFiles su fl).mapsbytype "diffuse").getD [],
      (∃ e, (m, e) ∈ fl) ∧ su.diffuse.isSuffixOf m = true := by
  unfold scanFiles
  apply foldl_preserve (fun (acc : ScanResult) =>
    ∀ m ∈ (dlookup acc.mapsbytype "diffuse").getD [],
      (∃ e, (m, e) ∈ fl) ∧ su.diffuse.isSuffixOf m = true)
  · intro m hm
    have hm2 : m ∈ ([] : List Str) := hm
    exact absurd hm2 (List.not_mem_nil _)
  · intro acc fp hfp hacc
    by_cases hbl : fp.2.map Char.toLower ∈ extBlackList
    · simp only [if_pos hbl]
      exact hacc
    simp only [if_neg hbl]
    by_cases hsl : fp.2 = chars ".sloth"
    · simp only [if_pos hsl]
      exact hacc
    simp only [if_neg hsl]
    apply foldl_preserve (fun (acc : ScanResult) =>
      ∀ m ∈ (dlookup acc.mapsbytype "diffuse").getD [],
        (∃ e, (m, e) ∈ fl) ∧ su.diffuse.isSuffixOf m = true)
    · exact hacc
    · intro acc2 sp hsp hacc2
      by_cases hsuf : sp.2.isSuffixOf fp.1 = true
      · simp only [if_pos hsuf]
        intro m hm
        by_cases hdk : sp.1 = "diffuse"
        · have hlk : dlookup (dinsert acc2.mapsbytype sp.1
              (setInsert ((dlookup acc2.mapsbytype sp.1).getD []) fp.1)) "diffuse" =
              some (setInsert ((dlookup acc2.mapsbytype sp.1).getD []) fp.1) := by
            rw [← hdk]
            exact dlookup_dinsert_self _ _ _
          have hm2 : m ∈ (dlookup (dinsert acc2.mapsbytype sp.1
              (setInsert ((dlookup acc2.mapsbytype sp.1).getD []) fp.1)) "diffuse").getD [] :=
            hm
          rw [hlk] at hm2
          have hm3 : m ∈ setInsert ((dlookup acc2.mapsbytype sp.1).getD []) fp.1 := hm2
          rcases setInsert_mem hm3 with h2 | h2
          · rw [hdk] at h2
            exact hacc2 m h2
          · have hsp2 : sp.2 = su.diffuse := by
              simp only [suffixPairs, List.mem_cons, List.not_mem_nil, or_false] at hsp
              rcases hsp with h | h | h | h | h | h | h | h <;> rw [h] at hdk ⊢ <;>
                first
                  | rfl
                  | exact absurd hdk (by simp)
            refine ⟨⟨fp.2, by rw [h2]; exact hfp⟩, ?_⟩
            rw [h2, ← hsp2]
            exact hsuf
        · have hlk : dlookup (dinsert acc2.mapsbytype sp.1
              (setInsert ((dlookup acc2.mapsbytype sp.1).getD []) fp.1)) "diffuse" =
              dlookup acc2.mapsbytype "diffuse" :=
            dlookup_dinsert_ne _ _ (fun he => hdk he.symm)
          have hm2 : m ∈ (dlookup (dinsert acc2.mapsbytype sp.1
              (setInsert ((dlookup acc2.mapsbytype sp.1).getD []) fp.1)) "diffuse").getD [] :=
            hm
          rw [hlk] at hm2
          exact hacc2 m hm2
      · simp only [if_neg hsuf]
        exact hacc2

theorem take_append_of_suffix {s t : Str} (h : t.isSuffixOf s = true) :
    s.take (s.length - t.length) ++ t = s := by
  have hsuf : t <:+ s := List.isSuffixOf_iff_suffix.mp h
  obtain ⟨u, hu⟩ := hsuf
  have hlen : s.length - t.length = u.length := by
    rw [← hu, List.length_append]
    omega
  rw [hlen, ← hu, List.take_left]

theorem findMap_full_hit {cands : List Str} {base suffix : Str}
    (hne : base ≠ []) (h : base ++ suffix ∈ cands) :
    findMap cands base suffix = some (base ++ suffix) := by
  cases base with
  | nil => exact absurd rfl hne
  | cons a t =>
      show findMapFrom cands (a :: t) suffix (t.length + 1) = _
      unfold findMapFrom
      have htake : (a :: t).take (t.length + 1) = a :: t := List.take_length (a :: t)
      rw [htake, if_pos h]

theorem getMapV_addKeywordsTo (sh : Shader) (t : String) :
    getMapV (addKeywordsTo sh) t = getMapV sh t := rfl

theorem getMapV_analyzeMaps (imgs : Str → PyImage) (sh : Shader) (t : String) :
    getMapV (analyzeMaps imgs sh) t = getMapV sh t := by
  by_cases hadd : truthy (getMapV sh "addition") = true
  · simp only [analyzeMaps, if_pos hadd]
    rfl
  · simp only [analyzeMaps, if_neg hadd]
    rfl

theorem getMapV_clearAddition_diffuse (sh : Shader) :
    getMapV (clearAddition sh) "diffuse" = getMapV sh "diffuse" := by
  unfold clearAddition getMapV
  have h : dlookup (dinsert sh.maps "addition" none) "diffuse" =
      dlookup sh.maps "diffuse" :=
    dlookup_dinsert_ne _ _ (by decide)
  rw [h]

/-- A freshly built shader record whose map table binds "diffuse" to a
non-empty stem keeps a Python-truthy diffuse entry through the metadata
and keyword passes. -/
theorem diffuse_head_truthy (imgs : Str → PyImage) (sh : Shader) (d : Str)
    (hlk : dlookup sh.maps "diffuse" = some (some d)) (hdne : d ≠ []) :
    truthy (getMapV (addKeywordsTo (analyzeMaps imgs sh)) "diffuse") = true := by
  rw [getMapV_addKeywordsTo, getMapV_analyzeMaps]
  unfold getMapV
  rw [hlk]
  cases d with
  | nil => exact absurd rfl hdne
  | cons a t => rfl

theorem expand_preserves_diffuse (s : List (Str × Shader))
    (hs : ∀ p ∈ s, truthy (getMapV p.2 "diffuse") = true) :
    ∀ p ∈ expandLightShaders s, truthy (getMapV p.2 "diffuse") = true := by
  simp only [expandLightShaders]
  apply dupdate_pred
  · intro p hp
    exact hs p (List.mem_of_mem_filter hp)
  · apply foldl_preserve (fun (acc : List (Str × Shader)) =>
      ∀ p ∈ acc, truthy (getMapV p.2 "diffuse") = true)
    · intro p hp
      exact absurd hp (List.not_mem_nil _)
    · intro acc q hq hacc
      simp only [expandStep]
      by_cases hadd : truthy (getMapV q.2 "addition") = true
      · simp only [if_pos hadd]
        apply dinsert_pred
        · by_cases hgray : q.2.meta.additionGrayscale.getD false = true
          · simp only [if_pos hgray]
            apply foldl_preserve (fun (acc : List (Str × Shader)) => ∀ p ∈ acc,
              truthy (getMapV p.2 "diffuse") = true)
            · exact hacc
            · intro acc2 cp _ hacc2
              apply foldl_preserve (fun (acc : List (Str × Shader)) => ∀ p ∈ acc,
                truthy (getMapV p.2 "diffuse") = true)
              · exact hacc2
              · intro acc3 ip _ hacc3
                refine dinsert_pred _ _ _ _ hacc3 ?_
                exact hs q hq
          · simp only [if_neg hgray]
            apply foldl_preserve (fun (acc : List (Str × Shader)) => ∀ p ∈ acc,
              truthy (getMapV p.2 "diffuse") = true)
            · exact hacc
            · intro acc2 ip _ hacc2
              refine dinsert_pred _ _ _ _ hacc2 ?_
              exact hs q hq
        · have h2 : truthy (getMapV (clearAddition q.2) "diffuse") = true := by
            rw [getMapV_clearAddition_diffuse]
            exact hs q hq
          exact h2
      · simp only [if_neg hadd]
        exact hacc

theorem truthy_isSome {o : Option Str} (h : truthy o = true) : o.isSome := by
  cases o with
  | none => exact Bool.noConfusion h
  | some s => rfl

theorem previewChoice_ne_none {sh : Shader}
    (h : truthy (getMapV sh "diffuse") = true) : previewChoice sh ≠ none := by
  unfold previewChoice
  by_cases hp : truthy (getMapV sh "preview") = true
  · rw [if_pos hp]
    rcases hv : getMapV sh "preview" with _ | s
    · rw [hv] at hp
      exact Bool.noConfusion hp
    · exact Option.noConfusion
  · rw [if_neg hp, if_pos h]
    rcases hv : getMapV sh "diffuse" with _ | s
    · rw [hv] at h
      exact Bool.noConfusion h
    · exact Option.noConfusion

set_option maxHeartbeats 1000000 in
/-- C10: after generateSet (including light-variant expansion), every
record in every stored Set carries a non-None (indeed non-empty, hence
Python-truthy) diffuse map entry, and the preview-image fallback of the
emitter always finds an image. Hypotheses: listing stems are non-empty
(os.path.splitext never yields an empty stem before an extension), no
stem equals the diffuse suffix alone (such a file yields the empty
shader name, whose association loop resets shader["diffuse"] to None
and makes CPython raise TypeError inside __analyzeMaps before the set
is stored), and the previously stored sets already satisfy the
invariant. -/
theorem C10_records_keep_diffuse (g : GenState) (inp : DirInput) (setname : Str)
    (hstem : ∀ p ∈ inp.filelist, p.1 ≠ [])
    (hsuf : ∀ p ∈ inp.filelist, p.1 ≠ g.suffixes.diffuse)
    (hprev : ∀ s2 ∈ g.sets, ∀ p ∈ s2.2, truthy (getMapV p.2 "diffuse") = true) :
    ∀ s2 ∈ (generateSet g inp setname).sets, ∀ p ∈ s2.2,
      truthy (getMapV p.2 "diffuse") = true ∧
      (getMapV p.2 "diffuse").isSome ∧
      previewChoice p.2 ≠ none := by
  have hmain : ∀ s2 ∈ (generateSet g inp setname).sets, ∀ p ∈ s2.2,
      truthy (getMapV p.2 "diffuse") = true := by
    simp only [generateSet]
    apply dinsert_pred (fun (s2 : Str × List (Str × Shader)) =>
      ∀ p ∈ s2.2, truthy (getMapV p.2 "diffuse") = true)
    · exact hprev
    · apply expand_preserves_diffuse
      apply foldl_preserve (fun (acc : List (Str × Shader)) =>
      ∀ p ∈ acc, truthy (getMapV p.2 "diffuse") = true)
      · rcases hlkp : dlookup g.sets setname with _ | set1
        · intro p hp
          have hp2 : p ∈ ([] : List (Str × Shader)) := hp
          exact absurd hp2 (List.not_mem_nil _)
        · intro p hp
          exact hprev (setname, set1) (mem_of_dlookup hlkp) p hp
      · intro acc d hd hacc
        obtain ⟨⟨e, hde⟩, hdsuf⟩ := scan_diffuse_sound g.suffixes inp.filelist d hd
        have hdne : d ≠ [] := hstem (d, e) hde
        have hdeq : d ≠ g.suffixes.diffuse := hsuf (d, e) hde
        have htake : d.take (d.length - g.suffixes.diffuse.length) ++
            g.suffixes.diffuse = d := take_append_of_suffix hdsuf
        have hbase : d.take (d.length - g.suffixes.diffuse.length) ≠ [] := by
          intro he
          rw [he, List.nil_append] at htake
          exact hdeq htake.symm
        have hfind : findMap ((dlookup (scanFiles g.suffixes inp.filelist).mapsbytype
            "diffuse").getD []) (d.take (d.length - g.suffixes.diffuse.length))
            g.suffixes.diffuse = some d := by
          have h2 := findMap_full_hit hbase (htake.symm ▸ hd)
          rw [htake] at h2
          exact h2
        refine dinsert_pred _ _ _ _ hacc ?_
        refine diffuse_head_truthy inp.imgs _ d ?_ hdne
        show dlookup ((suffixPairs g.suffixes).map (fun sp =>
          (sp.1, findMap ((dlookup (scanFiles g.suffixes inp.filelist).mapsbytype
            sp.1).getD []) (d.take (d.length - g.suffixes.diffuse.length)) sp.2)))
          "diffuse" = some (some d)
        simp only [suffixPairs, List.map_cons]
        rw [dlookup_cons, if_pos rfl, hfind]
  intro s2 hs2 p hp
  have h := hmain s2 hs2 p hp
  exact ⟨h, truthy_isSome h, previewChoice_ne_none h⟩

def exInput : DirInput :=
  { filelist := [(chars "wall_d", chars ".tga"), (chars "wall_n", chars ".tga"),
                 (chars "wall_h", chars ".tga")],
    slothContents := fun _ => [],
    imgs := fun _ => { mode := "RGB", extremaLastMin := 0, hasTransparencyInfo := false,
                       alphaBytes := [], rgbColors := none, histogram := [],
                       width := 0, height := 0 } }

def exGen : GenState :=
  { defaults := defaultOptions, suffixes := defaultSuffixes, sets := [] }

def exDefaultRec : Str × Shader :=
  ([], { name := [], maps := [], exts := [], options := defaultOptions,
         meta := emptyMeta, keywords := none })

def exOutPair : Str × List (Str × Shader) :=
  (generateSet exGen exInput (chars "textures/test")).sets.getD 0 ([], [])

def exOutRec : Str × Shader := exOutPair.2.getD 0 exDefaultRec

/-- Witness for C10: the wall shader generated from a concrete
three-file directory keeps its truthy diffuse entry. -/
theorem C10_records_keep_diffuse_witness :
    truthy (getMapV exOutRec.2 "diffuse") = true ∧
    (getMapV exOutRec.2 "diffuse").isSome ∧
    previewChoice exOutRec.2 ≠ none :=
  C10_records_keep_diffuse exGen exInput (chars "textures/test")
    (by decide) (by decide)
    (by intro s2 hs2; exact absurd hs2 (List.not_mem_nil _))
    exOutPair (by decide) exOutRec (by decide)

/-- Witness for the amended C4 at concrete shaders. -/
theorem C4_no_expansion_cases_witness :
    expandLightShaders [(chars "glow", exShaderPlain)] = [(chars "glow", exShaderPlain)] ∧
    expandLightShaders [(chars "glow", exShaderZero)] =
      [(chars "glow" ++ chars "_off", clearAddition exShaderZero)] :=
  ⟨C4_no_expansion_cases.1 (chars "glow") exShaderPlain rfl,
   (C4_no_expansion_cases.2.1 (chars "glow") exShaderZero (by decide) rfl
      (Or.inl rfl)).1⟩

end Sloth
